import Mathlib

/-!
# Verification of the subword-nmt byte-pair-encoding implementation

A shallow embedding, in Lean 4, of the core of the `subword-nmt` fork under
verification: the incremental pair-statistics maintenance of `learn_bpe.py`
(`get_pair_statistics`, `replace_pair`, `update_pair_statistics`, and the
selection loop of `main`), and the encoder of `apply_bpe.py` (`encode`,
`get_pairs`, `recursive_split`, `check_vocab_and_split`, `BPE.pieces`,
`BPE._isolate_glossaries`, and the merge-table loading in `BPE.__init__`).

Python strings are embedded as `List Char`; a word is a list of symbols;
frequencies are `Int` (Python ints).  Fallible code (index errors, the
`NotImplementedError` on unknown versions, unbounded recursion) is embedded
with `Except`/`Option`; unbounded recursion is embedded with explicit fuel,
so that divergence of the Python code corresponds to the fueled function
returning `none` for every fuel value.
-/

namespace SubwordNMT

/-- A symbol (a Python string): modelled as its list of characters. -/
abbrev Sym := List Char

/-- An ordered pair of symbols, as manipulated by BPE merges. -/
abbrev SPair := Sym × Sym

/-- The end-of-word marker `'</w>'` of `apply_bpe.py` / `learn_bpe.py`. -/
def endword : Sym := ['<', '/', 'w', '>']

/-- Concatenation of the symbols of a word (what the word spells). -/
def cat : List Sym → Sym
  | [] => []
  | a :: t => a ++ cat t

@[simp] theorem cat_nil : cat [] = [] := rfl

@[simp] theorem cat_cons (a : Sym) (t : List Sym) : cat (a :: t) = a ++ cat t := rfl

theorem cat_append (l₁ l₂ : List Sym) : cat (l₁ ++ l₂) = cat l₁ ++ cat l₂ := by
  induction l₁ with
  | nil => simp
  | cons a t ih => simp [ih]

/-- The list of adjacent symbol pairs of a word, with multiplicity and in
order.  `get_pairs` of `apply_bpe.py` returns the corresponding set; the
statistics of `learn_bpe.py` count each adjacent position. -/
def pairsList (w : List Sym) : List SPair := w.zip w.tail

@[simp] theorem pairsList_nil : pairsList [] = [] := rfl

@[simp] theorem pairsList_single (a : Sym) : pairsList [a] = [] := rfl

@[simp] theorem pairsList_cons₂ (a b : Sym) (t : List Sym) :
    pairsList (a :: b :: t) = (a, b) :: pairsList (b :: t) := rfl

/-- Number of adjacent occurrences of the pair `q` in the word `w`. -/
def pc (w : List Sym) (q : SPair) : Nat := (pairsList w).count q

section Merge

variable (A B : Sym)

/-- One left-to-right, non-overlapping pass replacing every adjacent
occurrence of the symbols `A B` by the fused symbol `A ++ B`.

This embeds both the replacement loop of `encode` (`apply_bpe.py`,
lines 277-295) and the regex substitution of `replace_pair`
(`learn_bpe.py`, lines 196-210): there, `(?<!\S)` and `(?!\S)` restrict
matches of `re.escape(first + ' ' + second)` in `' '.join(word)` to whole
adjacent symbols (symbols are non-empty and whitespace-free), `re.sub`
replaces leftmost non-overlapping matches, and the doubled backslashes of
`pair_str` make the replacement the literal text `first+second`. -/
def mergeAll : List Sym → List Sym
  | a :: b :: t => if a = A ∧ b = B then (A ++ B) :: mergeAll t else a :: mergeAll (b :: t)
  | l => l

@[simp] theorem mergeAll_nil : mergeAll A B [] = [] := rfl

@[simp] theorem mergeAll_single (a : Sym) : mergeAll A B [a] = [a] := rfl

theorem mergeAll_cons₂ (a b : Sym) (t : List Sym) :
    mergeAll A B (a :: b :: t) =
      if a = A ∧ b = B then (A ++ B) :: mergeAll A B t
      else a :: mergeAll A B (b :: t) := by
  rw [mergeAll]

/-- Merging preserves the spelled-out word. -/
theorem cat_mergeAll : ∀ w : List Sym, cat (mergeAll A B w) = cat w
  | [] => rfl
  | [a] => rfl
  | a :: b :: t => by
    rw [mergeAll_cons₂]
    by_cases h : a = A ∧ b = B
    · rw [if_pos h, h.1, h.2]
      simp only [cat_cons, cat_mergeAll t, List.append_assoc]
    · simp only [if_neg h, cat_cons, cat_mergeAll (b :: t)]

/-- Merging never lengthens the word. -/
theorem mergeAll_length_le : ∀ w : List Sym, (mergeAll A B w).length ≤ w.length
  | [] => le_refl _
  | [a] => le_refl _
  | a :: b :: t => by
    rw [mergeAll_cons₂]
    by_cases h : a = A ∧ b = B
    · have := mergeAll_length_le t
      rw [if_pos h]; simp only [List.length_cons]; omega
    · have := mergeAll_length_le (b :: t)
      rw [if_neg h]; simp only [List.length_cons] at *; omega

/-- If the pair actually occurs, one merge pass strictly decreases the
number of symbols. -/
theorem mergeAll_length_lt : ∀ w : List Sym, (A, B) ∈ pairsList w →
    (mergeAll A B w).length < w.length
  | [], h => by simp [pairsList] at h
  | [a], h => by simp [pairsList] at h
  | a :: b :: t, h => by
    rw [mergeAll_cons₂]
    by_cases hab : a = A ∧ b = B
    · have := mergeAll_length_le A B t
      rw [if_pos hab]; simp only [List.length_cons]; omega
    · have hmem : (A, B) ∈ pairsList (b :: t) := by
        rcases (by simpa using h) with h' | h'
        · exact absurd ⟨h'.1.symm, h'.2.symm⟩ hab
        · exact h'
      have := mergeAll_length_lt (b :: t) hmem
      rw [if_neg hab]; simp only [List.length_cons] at *; omega

/-- If the pair does not occur, the merge pass is the identity. -/
theorem mergeAll_eq_of_not_mem : ∀ w : List Sym, (A, B) ∉ pairsList w →
    mergeAll A B w = w
  | [], _ => rfl
  | [a], _ => rfl
  | a :: b :: t, h => by
    rw [mergeAll_cons₂]
    have hab : ¬(a = A ∧ b = B) := by
      intro ⟨h1, h2⟩
      exact h (by simp [h1, h2])
    rw [if_neg hab, mergeAll_eq_of_not_mem (b :: t) (fun hx => h (by simp [hx]))]

/-- Every symbol of the merged word is the fused symbol or an old symbol. -/
theorem mem_mergeAll : ∀ w : List Sym, ∀ s ∈ mergeAll A B w, s = A ++ B ∨ s ∈ w
  | [], s, h => by simp at h
  | [a], s, h => by simpa using .inr (by simpa using h)
  | a :: b :: t, s, h => by
    rw [mergeAll_cons₂] at h
    by_cases hab : a = A ∧ b = B
    · rw [if_pos hab] at h
      rcases (by simpa using h) with h' | h'
      · exact .inl h'
      · rcases mem_mergeAll t s h' with h'' | h''
        · exact .inl h''
        · exact .inr (by simp [h''])
    · rw [if_neg hab] at h
      rcases (by simpa using h) with h' | h'
      · exact .inr (by simp [h'])
      · rcases mem_mergeAll (b :: t) s h' with h'' | h''
        · exact .inl h''
        · exact .inr (by simpa using List.mem_cons_of_mem a h'')

/-- Head of the merged word: the fused symbol if the word starts with the
pair, the old head otherwise. -/
theorem mergeAll_head? : ∀ w : List Sym,
    (mergeAll A B w).head? =
      match w with
      | a :: b :: _ => if a = A ∧ b = B then some (A ++ B) else some a
      | l => l.head?
  | [] => rfl
  | [a] => rfl
  | a :: b :: t => by
    rw [mergeAll_cons₂]
    by_cases hab : a = A ∧ b = B
    · simp [if_pos hab]
    · simp [if_neg hab]

end Merge

/-! ## The incremental update of `update_pair_statistics`

`update_pair_statistics(pair, changed, stats, indices)` (`learn_bpe.py`,
lines 115-171) walks each changed word twice: a first loop over the *old*
word decrements, at each occurrence of `A B`, the preceding pair
`(prev, A)` (when not at the start) and the following pair `(B, next)`
(when not at the end, and skipped when the window reads `A B … A B`);
a second loop over the *new* word increments, at each occurrence of the
fused symbol `A++B`, the preceding pair `(prev, A++B)` (when not at the
start) and the following pair `(A++B, next)` (when the next symbol is not
itself `A++B`).  Every individual update is `stats[p] ± freq` /
`indices[p][j] ± 1`, which commute, so we record the loops as the ordered
lists of touched pairs and apply them through their counts. -/

section DecInc

variable (A B : Sym)

/-- The "following pair" the first loop of `update_pair_statistics`
decrements after a merged occurrence whose remainder of the word is `t`
(empty when the occurrence is at the end, skipped when a second
occurrence follows immediately: the `A B C B C` window). -/
def decNext : List Sym → List SPair
  | c :: t' => if c = A ∧ t'.head? = some B then [] else [(B, c)]
  | [] => []

/-- The "preceding pair" decrement (`if i:` in the source). -/
def decPrev : Option Sym → List SPair
  | none => []
  | some x => [(x, A)]

/-- All pairs decremented by the first loop of `update_pair_statistics`
on an old word, in order; `p` is the symbol preceding the unscanned
remainder (`none` at the start of the word). -/
def decEvents : Option Sym → List Sym → List SPair
  | p, a :: b :: t =>
    if a = A ∧ b = B then decPrev A p ++ decNext A B t ++ decEvents (some b) t
    else decEvents (some a) (b :: t)
  | _, _ => []

/-- The "following pair" the second loop increments after an occurrence of
the fused symbol, skipped when the next symbol is again the fused symbol
(the `A BC BC` window). -/
def incNext : List Sym → List SPair
  | c :: _ => if c = A ++ B then [] else [(A ++ B, c)]
  | [] => []

/-- The "preceding pair" increment (`if i:` in the source). -/
def incPrev : Option Sym → List SPair
  | none => []
  | some x => [(x, A ++ B)]

/-- All pairs incremented by the second loop of `update_pair_statistics`
on a new word, in order. -/
def incEvents : Option Sym → List Sym → List SPair
  | p, a :: t => (if a = A ++ B then incPrev A B p ++ incNext A B t else []) ++ incEvents (some a) t
  | _, [] => []

/-- Number of merged occurrences in one left-to-right pass. -/
def sites : List Sym → Nat
  | a :: b :: t => if a = A ∧ b = B then sites t + 1 else sites (b :: t)
  | _ => 0

@[simp] theorem decNext_nil : decNext A B [] = [] := rfl

theorem decNext_cons (c : Sym) (t' : List Sym) :
    decNext A B (c :: t') = if c = A ∧ t'.head? = some B then [] else [(B, c)] := rfl

@[simp] theorem decEvents_nil (p : Option Sym) : decEvents A B p [] = [] := rfl

@[simp] theorem decEvents_single (p : Option Sym) (c : Sym) : decEvents A B p [c] = [] := rfl

theorem decEvents_site (p : Option Sym) (t : List Sym) :
    decEvents A B p (A :: B :: t) =
      decPrev A p ++ decNext A B t ++ decEvents A B (some B) t := by
  rw [decEvents, if_pos ⟨rfl, rfl⟩]

theorem decEvents_not_site (p : Option Sym) (c : Sym) (t : List Sym)
    (h : ¬(c = A ∧ t.head? = some B)) :
    decEvents A B p (c :: t) = decEvents A B (some c) t := by
  cases t with
  | nil => rfl
  | cons d t'' =>
    rw [decEvents, if_neg]
    intro ⟨h1, h2⟩
    exact h ⟨h1, by simp [h2]⟩

@[simp] theorem incEvents_nil (p : Option Sym) : incEvents A B p [] = [] := rfl

theorem incEvents_cons (p : Option Sym) (a : Sym) (t : List Sym) :
    incEvents A B p (a :: t) =
      (if a = A ++ B then incPrev A B p ++ incNext A B t else []) ++ incEvents A B (some a) t := by
  rw [incEvents]

@[simp] theorem sites_nil : sites A B [] = 0 := rfl

@[simp] theorem sites_single (c : Sym) : sites A B [c] = 0 := rfl

theorem sites_site (t : List Sym) : sites A B (A :: B :: t) = sites A B t + 1 := by
  rw [sites, if_pos ⟨rfl, rfl⟩]

theorem sites_not_site (c : Sym) (t : List Sym) (h : ¬(c = A ∧ t.head? = some B)) :
    sites A B (c :: t) = sites A B t := by
  cases t with
  | nil => rfl
  | cons d t'' =>
    rw [sites, if_neg]
    intro ⟨h1, h2⟩
    exact h ⟨h1, by simp [h2]⟩

theorem mergeAll_site (t : List Sym) :
    mergeAll A B (A :: B :: t) = (A ++ B) :: mergeAll A B t := by
  rw [mergeAll_cons₂, if_pos ⟨rfl, rfl⟩]

theorem mergeAll_not_site (c : Sym) (t : List Sym) (h : ¬(c = A ∧ t.head? = some B)) :
    mergeAll A B (c :: t) = c :: mergeAll A B t := by
  cases t with
  | nil => rfl
  | cons d t'' =>
    rw [mergeAll_cons₂, if_neg]
    intro ⟨h1, h2⟩
    exact h ⟨h1, by simp [h2]⟩

end DecInc

section Balance

variable (A B : Sym)

@[simp] theorem decPrev_none : decPrev A none = [] := rfl

@[simp] theorem decPrev_some (x : Sym) : decPrev A (some x) = [(x, A)] := rfl

@[simp] theorem incPrev_none : incPrev A B none = [] := rfl

@[simp] theorem incPrev_some (x : Sym) : incPrev A B (some x) = [(x, A ++ B)] := rfl

@[simp] theorem incNext_nil : incNext A B [] = [] := rfl

theorem incNext_cons (c : Sym) (r : List Sym) :
    incNext A B (c :: r) = if c = A ++ B then [] else [(A ++ B, c)] := rfl

theorem decNext_site (t : List Sym) : decNext A B (A :: B :: t) = [] := by
  rw [decNext_cons, if_pos ⟨rfl, by simp⟩]

/-- Core balance identity: on a word none of whose symbols already equals
the fused symbol, the pair-position counts before and after one merge pass
are related exactly by the decrement and increment events of
`update_pair_statistics`, up to `sites` occurrences of the merged pair
itself.  First conjunct: with an arbitrary left-context symbol `a`.
Second conjunct: in the context right after a merged occurrence, where the
old left context is `B` and the new one is the fused symbol. -/
theorem balance_aux : ∀ n : Nat, ∀ l : List Sym, l.length ≤ n →
    (∀ s ∈ l, s ≠ A ++ B) →
    ((∀ (a : Sym) (q : SPair),
      (pairsList (a :: mergeAll A B l)).count q + (decEvents A B (some a) l).count q
        + (if (A, B) = q then sites A B l else 0)
      = (pairsList (a :: l)).count q + (incEvents A B (some a) (mergeAll A B l)).count q)
    ∧ (∀ q : SPair,
      (pairsList ((A ++ B) :: mergeAll A B l)).count q + (decNext A B l).count q
        + (decEvents A B (some B) l).count q + (if (A, B) = q then sites A B l else 0)
      = (pairsList (B :: l)).count q + (incNext A B (mergeAll A B l)).count q
        + (incEvents A B (some (A ++ B)) (mergeAll A B l)).count q)) := by
  intro n
  induction n with
  | zero =>
    intro l hl _
    have hnil : l = [] := List.length_eq_zero.mp (Nat.le_zero.mp hl)
    subst hnil
    refine ⟨fun a q => by simp, fun q => by simp⟩
  | succ n ih =>
    intro l hl hfresh
    rcases l with _ | ⟨c, t'⟩
    · refine ⟨fun a q => by simp, fun q => by simp⟩
    by_cases hsite : c = A ∧ t'.head? = some B
    · obtain ⟨hcA, hh⟩ := hsite
      rcases t' with _ | ⟨d, t''⟩
      · simp at hh
      obtain rfl : A = c := hcA.symm
      obtain rfl : B = d := (show d = B by simpa using hh).symm
      have ht'' : t''.length ≤ n := by
        simp only [List.length_cons] at hl; omega
      have hfresh'' : ∀ s ∈ t'', s ≠ A ++ B := fun s hs => hfresh s (by simp [hs])
      obtain ⟨ih1, ih2⟩ := ih t'' ht'' hfresh''
      constructor
      · intro a q
        have h2 := ih2 q
        rw [mergeAll_site, decEvents_site, sites_site, incEvents_cons, if_pos rfl]
        simp only [pairsList_cons₂, decPrev_some, incPrev_some, List.count_append,
          List.count_cons, List.count_nil, beq_iff_eq]
        split_ifs at h2 ⊢ <;> omega
      · intro q
        have h2 := ih2 q
        rw [mergeAll_site, decNext_site, decEvents_site, sites_site, incEvents_cons, if_pos rfl]
        rw [incNext_cons, if_pos rfl]
        simp only [pairsList_cons₂, decPrev_some, incPrev_some,
          List.count_append, List.count_cons, List.count_nil, beq_iff_eq]
        split_ifs at h2 ⊢ <;> omega
    · have ht' : t'.length ≤ n := by
        simp only [List.length_cons] at hl; omega
      have hfresh' : ∀ s ∈ t', s ≠ A ++ B := fun s hs => hfresh s (by simp [hs])
      have hc : c ≠ A ++ B := hfresh c (by simp)
      obtain ⟨ih1, ih2⟩ := ih t' ht' hfresh'
      constructor
      · intro a q
        have h1 := ih1 c q
        rw [mergeAll_not_site A B c t' hsite, decEvents_not_site A B (some a) c t' hsite,
          sites_not_site A B c t' hsite, incEvents_cons, if_neg hc]
        simp only [pairsList_cons₂, List.count_append, List.count_cons, List.count_nil,
          List.nil_append, beq_iff_eq]
        split_ifs at h1 ⊢ <;> omega
      · intro q
        have h1 := ih1 c q
        rw [mergeAll_not_site A B c t' hsite, decNext_cons, if_neg hsite,
          decEvents_not_site A B (some B) c t' hsite,
          sites_not_site A B c t' hsite, incEvents_cons, if_neg hc, incNext_cons, if_neg hc]
        simp only [pairsList_cons₂, List.count_append, List.count_cons, List.count_nil,
          List.nil_append, beq_iff_eq]
        split_ifs at h1 ⊢ <;> omega

/-- Top-level balance identity for a whole word. -/
theorem balance (w : List Sym) (hw : ∀ s ∈ w, s ≠ A ++ B) (q : SPair) :
    (pairsList (mergeAll A B w)).count q + (decEvents A B none w).count q
      + (if (A, B) = q then sites A B w else 0)
    = (pairsList w).count q + (incEvents A B none (mergeAll A B w)).count q := by
  rcases w with _ | ⟨c, t'⟩
  · simp
  by_cases hsite : c = A ∧ t'.head? = some B
  · obtain ⟨hcA, hh⟩ := hsite
    rcases t' with _ | ⟨d, t''⟩
    · simp at hh
    obtain rfl : A = c := hcA.symm
    obtain rfl : B = d := (show d = B by simpa using hh).symm
    have hfresh'' : ∀ s ∈ t'', s ≠ A ++ B := fun s hs => hw s (by simp [hs])
    have h2 := (balance_aux A B t''.length t'' le_rfl hfresh'').2 q
    rw [mergeAll_site, decEvents_site, sites_site, incEvents_cons, if_pos rfl]
    simp only [pairsList_cons₂, decPrev_none, incPrev_none, List.count_append,
      List.count_cons, List.count_nil, List.nil_append, beq_iff_eq]
    split_ifs at h2 ⊢ <;> omega
  · have hfresh' : ∀ s ∈ t', s ≠ A ++ B := fun s hs => hw s (by simp [hs])
    have hc : c ≠ A ++ B := hw c (by simp)
    have h1 := (balance_aux A B t'.length t' le_rfl hfresh').1 c q
    rw [mergeAll_not_site A B c t' hsite, decEvents_not_site A B none c t' hsite,
      sites_not_site A B c t' hsite, incEvents_cons, if_neg hc]
    simp only [List.nil_append]
    split_ifs at h1 ⊢ <;> omega

end Balance


section NoPairLeft

variable (A B : Sym)

/-- After one merge pass, no adjacent occurrence of the merged pair is
left, provided neither half of the fused symbol is empty (so the fused
symbol differs from both halves). -/
theorem pc_mergeAll_pair : ∀ w : List Sym, A ++ B ≠ A → A ++ B ≠ B →
    pc (mergeAll A B w) (A, B) = 0
  | [], _, _ => rfl
  | [a], _, _ => rfl
  | c :: d :: t, hA, hB => by
    by_cases hsite : c = A ∧ d = B
    · obtain rfl : A = c := hsite.1.symm
      obtain rfl : B = d := hsite.2.symm
      rw [pc, mergeAll_site]
      rcases hM : mergeAll A B t with _ | ⟨h, r⟩
      · simp
      · have hpc := pc_mergeAll_pair t hA hB
        rw [pc, hM] at hpc
        simp only [pairsList_cons₂, List.count_cons, List.count_nil, beq_iff_eq]
        have hne : ¬((A ++ B, h) = (A, B)) := by
          intro he
          exact hA (congrArg Prod.fst he)
        rw [hpc, if_neg hne]
    · have hns : ¬(c = A ∧ (d :: t).head? = some B) := by
        intro ⟨h1, h2⟩
        exact hsite ⟨h1, by simpa using h2⟩
      rw [pc, mergeAll_not_site A B c (d :: t) hns]
      rcases hM : mergeAll A B (d :: t) with _ | ⟨h, r⟩
      · simp
      · have hpc := pc_mergeAll_pair (d :: t) hA hB
        rw [pc, hM] at hpc
        have hhd : h = A ++ B ∨ h = d := by
          have hhead := mergeAll_head? A B (d :: t)
          rw [hM] at hhead
          rcases t with _ | ⟨e, t'⟩
          · right; simpa using hhead
          · simp only at hhead
            by_cases hde : d = A ∧ e = B
            · left
              rw [if_pos hde] at hhead
              simpa using hhead
            · right
              rw [if_neg hde] at hhead
              simpa using hhead
        simp only [pairsList_cons₂, List.count_cons, List.count_nil, beq_iff_eq]
        have hne : ¬((c, h) = (A, B)) := by
          intro he
          have hc : c = A := congrArg Prod.fst he
          have hh : h = B := congrArg Prod.snd he
          rcases hhd with h' | h'
          · exact hB (h' ▸ hh)
          · exact hns ⟨hc, by simp [h' ▸ hh]⟩
        rw [hpc, if_neg hne]

end NoPairLeft

/-! ## Pair statistics: `get_pair_statistics`, `replace_pair`,
`update_pair_statistics` (`learn_bpe.py`) -/

/-- The `stats` table built by `get_pair_statistics` (`learn_bpe.py`,
lines 174-190): for every adjacent pair, the sum of the frequencies of the
words containing it, one contribution per adjacent position. -/
def get_pair_statistics_stats (vocab : List (List Sym × Int)) (q : SPair) : Int :=
  (vocab.map (fun wf => wf.2 * (pc wf.1 q : Int))).sum

/-- The `indices` table built by `get_pair_statistics`: pair → word
position → adjacency count within that word (an int in the source,
negative only transiently after incremental updates). -/
def get_pair_statistics_indices (vocab : List (List Sym × Int)) (q : SPair) (j : Nat) : Int :=
  match vocab.get? j with
  | some wf => (pc wf.1 q : Int)
  | none => 0

/-- One record `(j, word, old_word, freq)` appended to `changes` by
`replace_pair` (`learn_bpe.py`, line 213). -/
structure Change where
  j : Nat
  word : List Sym
  old_word : List Sym
  freq : Int
deriving DecidableEq, Repr

/-- The per-word loop of `replace_pair` (`learn_bpe.py`, lines 204-213),
producing the updated `vocab` array: the words listed in `indices[pair]`
with a positive count are rewritten by the leftmost non-overlapping
regex substitution (embedded as `mergeAll`), all others are untouched.
The counter is the word position `j`. -/
def replace_pair_vocab_from (A B : Sym) (idx : SPair → Nat → Int) :
    Nat → List (List Sym × Int) → List (List Sym × Int)
  | _, [] => []
  | j, wf :: t =>
    (if 1 ≤ idx (A, B) j then (mergeAll A B wf.1, wf.2) else wf)
      :: replace_pair_vocab_from A B idx (j + 1) t

def replace_pair_vocab (A B : Sym) (vocab : List (List Sym × Int))
    (idx : SPair → Nat → Int) : List (List Sym × Int) :=
  replace_pair_vocab_from A B idx 0 vocab

/-- The `changes` list returned by `replace_pair`, in ascending word
order (the iteration order of `indices[pair].items()`; entries with
`freq < 1` are skipped by the `continue`). -/
def replace_pair_changes_from (A B : Sym) (idx : SPair → Nat → Int) :
    Nat → List (List Sym × Int) → List Change
  | _, [] => []
  | j, wf :: t =>
    (if 1 ≤ idx (A, B) j then [⟨j, mergeAll A B wf.1, wf.1, wf.2⟩] else [])
      ++ replace_pair_changes_from A B idx (j + 1) t

def replace_pair_changes (A B : Sym) (vocab : List (List Sym × Int))
    (idx : SPair → Nat → Int) : List Change :=
  replace_pair_changes_from A B idx 0 vocab

/-- Net effect of `update_pair_statistics(pair, changed, stats, indices)`
on the `stats` table: `stats[pair]` is reset to `0` first (line 121), then
each change record contributes `freq` times each decrement and increment
event of its two scan loops.  The individual `stats[p] ± freq` updates
commute, so the sequential loops equal this sum of counted events. -/
def update_pair_statistics_stats (A B : Sym) (changes : List Change)
    (stats : SPair → Int) (q : SPair) : Int :=
  (if q = (A, B) then 0 else stats q)
    + (changes.map (fun c => c.freq *
        (((incEvents A B none c.word).count q : Int)
          - ((decEvents A B none c.old_word).count q : Int)))).sum

/-- Net effect of `update_pair_statistics` on the `indices` table:
`indices[pair]` is reset to an empty table first (line 122), then each
change record for word `j` contributes `±1` per event. -/
def update_pair_statistics_indices (A B : Sym) (changes : List Change)
    (idx : SPair → Nat → Int) (q : SPair) (j : Nat) : Int :=
  (if q = (A, B) then 0 else idx q j)
    + ((changes.filter (fun c => c.j = j)).map (fun c =>
        (((incEvents A B none c.word).count q : Int)
          - ((decEvents A B none c.old_word).count q : Int)))).sum

theorem mem_of_mem_pairsList {w : List Sym} {x y : Sym} (h : (x, y) ∈ pairsList w) :
    x ∈ w ∧ y ∈ w := by
  have h' := List.of_mem_zip h
  exact ⟨h'.1, List.mem_of_mem_tail h'.2⟩

theorem pc_pos_iff (w : List Sym) (q : SPair) : 1 ≤ pc w q ↔ q ∈ pairsList w := by
  rw [pc]
  exact List.count_pos_iff_mem

/-- Integer form of the balance identity, for pairs other than the merged
one. -/
theorem balance_int (A B : Sym) (w : List Sym) (hw : ∀ s ∈ w, s ≠ A ++ B) (q : SPair)
    (hq : q ≠ (A, B)) :
    ((pairsList (mergeAll A B w)).count q : Int)
      = ((pairsList w).count q : Int)
        + (((incEvents A B none (mergeAll A B w)).count q : Int)
          - ((decEvents A B none w).count q : Int)) := by
  have h := balance A B w hw q
  rw [if_neg (fun he => hq he.symm)] at h
  omega

theorem replace_pair_vocab_from_get? (A B : Sym) (idx : SPair → Nat → Int) :
    ∀ (l : List (List Sym × Int)) (k j : Nat),
    (replace_pair_vocab_from A B idx k l).get? j
      = (l.get? j).map
          (fun wf => if 1 ≤ idx (A, B) (k + j) then (mergeAll A B wf.1, wf.2) else wf)
  | [], k, j => by simp [replace_pair_vocab_from]
  | wf :: t, k, 0 => by simp [replace_pair_vocab_from]
  | wf :: t, k, j+1 => by
    simp only [replace_pair_vocab_from, List.get?_cons_succ]
    rw [replace_pair_vocab_from_get? A B idx t (k+1) j]
    have he : k + 1 + j = k + (j + 1) := by omega
    rw [he]

theorem replace_pair_changes_from_j_ge (A B : Sym) (idx : SPair → Nat → Int) :
    ∀ (l : List (List Sym × Int)) (k : Nat),
    ∀ c ∈ replace_pair_changes_from A B idx k l, k ≤ c.j
  | [], k => by simp [replace_pair_changes_from]
  | wf :: t, k => by
    intro c hc
    simp only [replace_pair_changes_from] at hc
    rcases List.mem_append.mp hc with h | h
    · by_cases hocc : 1 ≤ idx (A, B) k
      · rw [if_pos hocc] at h
        simp only [List.mem_singleton] at h
        subst h
        exact le_refl _
      · rw [if_neg hocc] at h
        simp at h
    · have := replace_pair_changes_from_j_ge A B idx t (k+1) c h
      omega

theorem replace_pair_changes_from_filter (A B : Sym) (idx : SPair → Nat → Int) :
    ∀ (l : List (List Sym × Int)) (k j : Nat), k ≤ j →
    (replace_pair_changes_from A B idx k l).filter (fun c => c.j = j)
      = (match l.get? (j - k) with
        | some wf =>
          if 1 ≤ idx (A, B) j then [⟨j, mergeAll A B wf.1, wf.1, wf.2⟩] else []
        | none => [])
  | [], k, j, hk => by simp [replace_pair_changes_from]
  | wf :: t, k, j, hk => by
    rcases Nat.eq_or_lt_of_le hk with rfl | hlt
    · have htail : (replace_pair_changes_from A B idx (k+1) t).filter
          (fun c => c.j = k) = [] := by
        rw [List.filter_eq_nil]
        intro c hc
        have := replace_pair_changes_from_j_ge A B idx t (k+1) c hc
        simp only [decide_eq_true_eq]
        omega
      simp only [replace_pair_changes_from, List.filter_append, htail, List.append_nil,
        Nat.sub_self, List.get?_cons_zero]
      by_cases hocc : 1 ≤ idx (A, B) k
      · rw [if_pos hocc]
        simp
      · rw [if_neg hocc]
        simp
    · have hstep : (if 1 ≤ idx (A, B) k
            then ([⟨k, mergeAll A B wf.1, wf.1, wf.2⟩] : List Change)
            else []).filter (fun c => c.j = j) = [] := by
        by_cases hocc : 1 ≤ idx (A, B) k
        · rw [if_pos hocc]
          simp only [List.filter_cons, List.filter_nil, decide_eq_true_eq]
          rw [if_neg (by omega)]
        · rw [if_neg hocc]; rfl
      simp only [replace_pair_changes_from, List.filter_append, hstep, List.nil_append]
      rw [replace_pair_changes_from_filter A B idx t (k+1) j (by omega)]
      have he : j - k = (j - (k+1)) + 1 := by omega
      rw [he, List.get?_cons_succ]

/-- Summed stats identity: after `replace_pair`, the rebuilt stats of any
pair other than the merged one equal the old stats plus the net event
contributions of the change list. -/
theorem update_stats_sum (A B : Sym) (idx : SPair → Nat → Int) :
    ∀ (l : List (List Sym × Int)) (k : Nat),
    (∀ i wf, l.get? i = some wf → (1 ≤ idx (A, B) (k + i) ↔ (A, B) ∈ pairsList wf.1)) →
    (∀ wf ∈ l, (A ++ B) ∉ wf.1) →
    ∀ q : SPair, q ≠ (A, B) →
    ((replace_pair_vocab_from A B idx k l).map (fun wf => wf.2 * (pc wf.1 q : Int))).sum
      = (l.map (fun wf => wf.2 * (pc wf.1 q : Int))).sum
        + ((replace_pair_changes_from A B idx k l).map (fun c => c.freq *
            (((incEvents A B none c.word).count q : Int)
              - ((decEvents A B none c.old_word).count q : Int)))).sum
  | [], k, hidx, hfresh, q, hq => by simp [replace_pair_vocab_from, replace_pair_changes_from]
  | wf :: t, k, hidx, hfresh, q, hq => by
    have hidx0 := hidx 0 wf (by simp)
    rw [Nat.add_zero] at hidx0
    have hidx' : ∀ i wf', t.get? i = some wf' →
        (1 ≤ idx (A, B) (k + 1 + i) ↔ (A, B) ∈ pairsList wf'.1) := by
      intro i wf' hget
      have := hidx (i+1) wf' (by simpa using hget)
      rwa [show k + (i + 1) = k + 1 + i by omega] at this
    have hfresh' : ∀ wf' ∈ t, (A ++ B) ∉ wf'.1 := fun wf' hw => hfresh wf' (by simp [hw])
    have ih := update_stats_sum A B idx t (k+1) hidx' hfresh' q hq
    have hfw : ∀ s ∈ wf.1, s ≠ A ++ B := by
      intro s hs he
      exact hfresh wf (by simp) (he ▸ hs)
    by_cases hocc : 1 ≤ idx (A, B) k
    · simp only [replace_pair_vocab_from, replace_pair_changes_from, if_pos hocc,
        List.map_cons, List.sum_cons, List.map_append, List.sum_append,
        List.map_nil, List.sum_nil]
      rw [ih]
      have hb := balance_int A B wf.1 hfw q hq
      rw [pc, pc, hb]
      ring
    · simp only [replace_pair_vocab_from, replace_pair_changes_from, if_neg hocc,
        List.map_cons, List.sum_cons, List.nil_append]
      rw [ih]
      ring

/-- Rebuilt stats of the merged pair itself vanish after `replace_pair`. -/
theorem rebuilt_pair_stats_zero (A B : Sym) (idx : SPair → Nat → Int)
    (hA : A ++ B ≠ A) (hB : A ++ B ≠ B) :
    ∀ (l : List (List Sym × Int)) (k : Nat),
    (∀ i wf, l.get? i = some wf → (1 ≤ idx (A, B) (k + i) ↔ (A, B) ∈ pairsList wf.1)) →
    ((replace_pair_vocab_from A B idx k l).map
        (fun wf => wf.2 * (pc wf.1 (A, B) : Int))).sum = 0
  | [], k, hidx => by simp [replace_pair_vocab_from]
  | wf :: t, k, hidx => by
    have hidx0 := hidx 0 wf (by simp)
    rw [Nat.add_zero] at hidx0
    have hidx' : ∀ i wf', t.get? i = some wf' →
        (1 ≤ idx (A, B) (k + 1 + i) ↔ (A, B) ∈ pairsList wf'.1) := by
      intro i wf' hget
      have := hidx (i+1) wf' (by simpa using hget)
      rwa [show k + (i + 1) = k + 1 + i by omega] at this
    have ih := rebuilt_pair_stats_zero A B idx hA hB t (k+1) hidx'
    by_cases hocc : 1 ≤ idx (A, B) k
    · simp only [replace_pair_vocab_from, if_pos hocc, List.map_cons, List.sum_cons]
      rw [ih, pc_mergeAll_pair A B wf.1 hA hB]
      simp
    · simp only [replace_pair_vocab_from, if_neg hocc, List.map_cons, List.sum_cons]
      rw [ih]
      have hnm : (A, B) ∉ pairsList wf.1 := fun hm => hocc (hidx0.mpr hm)
      have hz : pc wf.1 (A, B) = 0 := by
        rw [pc, List.count_eq_zero]
        exact hnm
      rw [hz]
      simp

/-- C1 (amended): with the fused symbol fresh (not yet a symbol of any
word), merging a pair everywhere via `replace_pair` and running
`update_pair_statistics` on exactly the returned change list agrees, on
every pair with nonzero rebuilt count (and every index entry with nonzero
rebuilt count), with rebuilding the tables from scratch by
`get_pair_statistics` on the updated word list. -/
theorem update_pair_statistics_matches_rebuild
    (A B : Sym) (vocab : List (List Sym × Int))
    (hpos : ∀ wf ∈ vocab, 0 < wf.2)
    (hocc : ∃ wf ∈ vocab, (A, B) ∈ pairsList wf.1)
    (hfresh : ∀ wf ∈ vocab, (A ++ B) ∉ wf.1) :
    (∀ q : SPair,
      get_pair_statistics_stats
          (replace_pair_vocab A B vocab (get_pair_statistics_indices vocab)) q ≠ 0 →
      update_pair_statistics_stats A B
          (replace_pair_changes A B vocab (get_pair_statistics_indices vocab))
          (get_pair_statistics_stats vocab) q
        = get_pair_statistics_stats
            (replace_pair_vocab A B vocab (get_pair_statistics_indices vocab)) q)
    ∧ (∀ (q : SPair) (j : Nat),
      get_pair_statistics_indices
          (replace_pair_vocab A B vocab (get_pair_statistics_indices vocab)) q j ≠ 0 →
      update_pair_statistics_indices A B
          (replace_pair_changes A B vocab (get_pair_statistics_indices vocab))
          (get_pair_statistics_indices vocab) q j
        = get_pair_statistics_indices
            (replace_pair_vocab A B vocab (get_pair_statistics_indices vocab)) q j) := by
  obtain ⟨wf0, hwf0, hocc0⟩ := hocc
  have hmemA : A ∈ wf0.1 := (mem_of_mem_pairsList hocc0).1
  have hmemB : B ∈ wf0.1 := (mem_of_mem_pairsList hocc0).2
  have hA : A ++ B ≠ A := fun he => hfresh wf0 hwf0 (by rw [he]; exact hmemA)
  have hB : A ++ B ≠ B := fun he => hfresh wf0 hwf0 (by rw [he]; exact hmemB)
  have hidx : ∀ i wf, vocab.get? i = some wf →
      (1 ≤ get_pair_statistics_indices vocab (A, B) (0 + i) ↔ (A, B) ∈ pairsList wf.1) := by
    intro i wf hget
    rw [Nat.zero_add, get_pair_statistics_indices, hget]
    rw [show ((1 : Int) ≤ (pc wf.1 (A, B) : Int)) ↔ 1 ≤ pc wf.1 (A, B) from by
      exact_mod_cast Iff.rfl]
    exact pc_pos_iff wf.1 (A, B)
  constructor
  · intro q hq
    have hqne : q ≠ (A, B) := by
      intro he
      subst he
      exact hq (rebuilt_pair_stats_zero A B (get_pair_statistics_indices vocab) hA hB vocab 0 hidx)
    have hsum := update_stats_sum A B (get_pair_statistics_indices vocab) vocab 0 hidx
      (fun wf hw => hfresh wf hw) q hqne
    simp only [update_pair_statistics_stats, if_neg hqne, get_pair_statistics_stats,
      replace_pair_vocab, replace_pair_changes]
    rw [hsum]
  · intro q j hqj
    rw [get_pair_statistics_indices, replace_pair_vocab,
      replace_pair_vocab_from_get? A B (get_pair_statistics_indices vocab) vocab 0 j] at hqj ⊢
    rcases hget : vocab.get? j with _ | wf
    · rw [hget] at hqj
      simp at hqj
    rw [hget] at hqj
    simp only [Nat.zero_add] at hqj ⊢
    have hwmem : wf ∈ vocab := List.get?_mem hget
    have hfw : ∀ s ∈ wf.1, s ≠ A ++ B := by
      intro s hs he
      exact hfresh wf hwmem (he ▸ hs)
    have hidxj := hidx j wf hget
    rw [Nat.zero_add] at hidxj
    have hqne : q ≠ (A, B) := by
      intro he
      subst he
      apply hqj
      by_cases hoccj : 1 ≤ get_pair_statistics_indices vocab (A, B) j
      · simp only [Option.map_some', if_pos hoccj]
        rw [pc_mergeAll_pair A B wf.1 hA hB]
        rfl
      · simp only [Option.map_some', if_neg hoccj]
        have hz : pc wf.1 (A, B) = 0 := by
          rw [pc, List.count_eq_zero]
          exact fun hm => hoccj (hidxj.mpr hm)
        rw [hz]
        rfl
    rw [update_pair_statistics_indices, if_neg hqne, replace_pair_changes,
      replace_pair_changes_from_filter A B (get_pair_statistics_indices vocab) vocab 0 j
        (Nat.zero_le j), Nat.sub_zero, hget]
    have hbase : get_pair_statistics_indices vocab q j = (pc wf.1 q : Int) := by
      rw [get_pair_statistics_indices, hget]
    by_cases hoccj : 1 ≤ get_pair_statistics_indices vocab (A, B) j
    · simp only [Option.map_some', if_pos hoccj, List.map_cons, List.map_nil, List.sum_cons,
        List.sum_nil]
      rw [hbase]
      have hb := balance_int A B wf.1 hfw q hqne
      simp only [pc]
      omega
    · simp only [Option.map_some', if_neg hoccj, List.map_nil, List.sum_nil]
      rw [hbase]
      omega

/-- The vocabulary state of the C1 counterexample: one word
`('a','b','c','ab')` of frequency 1, in which the pair `('a','b')`
occurs while the fused symbol `'ab'` is already present as a symbol. -/
def staleVocab : List (List Sym × Int) := [([['a'], ['b'], ['c'], ['a', 'b']], 1)]

/-- C1 as stated is false: on `staleVocab`, merging `('a','b')` via
`replace_pair` and updating via `update_pair_statistics` leaves the pair
`('c','ab')` with incremental count 2, while rebuilding from scratch
gives its true (nonzero) count 1: the increment loop scans the new word
for the symbol `'ab'` and also credits the pre-existing occurrence. -/
theorem update_pair_statistics_stale_counterexample :
    (0 < (1 : Int) ∧ (['a'], ['b']) ∈ pairsList [['a'], ['b'], ['c'], ['a', 'b']])
    ∧ get_pair_statistics_stats
        (replace_pair_vocab ['a'] ['b'] staleVocab (get_pair_statistics_indices staleVocab))
        (['c'], ['a', 'b']) ≠ 0
    ∧ update_pair_statistics_stats ['a'] ['b']
        (replace_pair_changes ['a'] ['b'] staleVocab (get_pair_statistics_indices staleVocab))
        (get_pair_statistics_stats staleVocab) (['c'], ['a', 'b'])
      ≠ get_pair_statistics_stats
          (replace_pair_vocab ['a'] ['b'] staleVocab (get_pair_statistics_indices staleVocab))
          (['c'], ['a', 'b']) := by
  refine ⟨⟨by decide, by decide⟩, by decide, by decide⟩

/-- The vocabulary used to witness the amended C1. -/
def freshVocab : List (List Sym × Int) := [([['a'], ['b'], ['c']], 2)]

theorem update_pair_statistics_matches_rebuild_witness :
    update_pair_statistics_stats ['a'] ['b']
        (replace_pair_changes ['a'] ['b'] freshVocab (get_pair_statistics_indices freshVocab))
        (get_pair_statistics_stats freshVocab) (['a', 'b'], ['c'])
      = get_pair_statistics_stats
          (replace_pair_vocab ['a'] ['b'] freshVocab (get_pair_statistics_indices freshVocab))
          (['a', 'b'], ['c']) :=
  (update_pair_statistics_matches_rebuild ['a'] ['b'] freshVocab (by decide)
    ⟨([['a'], ['b'], ['c']], 2), by decide, by decide⟩ (by decide)).1
    (['a', 'b'], ['c']) (by decide)

/-! ## Loading the merge table: `BPE.__init__` (`apply_bpe.py`, lines 95-100)

`self.bpe_codes = [tuple(item.split()) for item in codes]` reads one pair
per line (we model well-formed two-token lines as `List SPair`); then
`self.bpe_codes = dict([(code, i) for (i, code) in reversed(list(enumerate(...)))])`
builds a dict by assigning ranks in reversed line order, so the assignment
for the first occurrence of a pair happens last and wins; and
`self.bpe_codes_reverse = dict([(pair[0] + pair[1], pair) for pair, i in
self.bpe_codes.items()])` folds over the dict items, whose order is the
first-insertion order of the reversed sequence. -/

/-- Repeated dict assignment of the key/value pairs of `l` in order into an
initially empty dict, read back as a function (later assignments win). -/
def assignAll {κ ν : Type} [DecidableEq κ] (l : List (κ × ν)) : κ → Option ν :=
  l.foldl (fun acc kv => fun k => if k = kv.1 then some kv.2 else acc k) (fun _ => none)

theorem find?_append_cases {α : Type} (p : α → Bool) :
    ∀ l₁ l₂ : List α, (l₁ ++ l₂).find? p
      = match l₁.find? p with
        | some x => some x
        | none => l₂.find? p
  | [], l₂ => rfl
  | a :: t, l₂ => by
    by_cases h : p a
    · simp [List.find?, h]
    · simp only [List.cons_append, List.find?]
      rw [Bool.not_eq_true] at h
      rw [h]
      exact find?_append_cases p t l₂

theorem assignAll_foldl_eq {κ ν : Type} [DecidableEq κ] :
    ∀ (l : List (κ × ν)) (init : κ → Option ν) (k : κ),
    (l.foldl (fun acc kv => fun k' => if k' = kv.1 then some kv.2 else acc k') init) k
      = match l.reverse.find? (fun kv => kv.1 = k) with
        | some kv => some kv.2
        | none => init k
  | [], init, k => rfl
  | kv :: t, init, k => by
    simp only [List.foldl_cons, List.reverse_cons]
    rw [assignAll_foldl_eq t _ k, find?_append_cases]
    rcases hfind : t.reverse.find? (fun kv' => decide (kv'.1 = k)) with _ | kv'
    · simp only [hfind]
      by_cases hk : kv.1 = k
      · have h1 : ([kv] : List (κ × ν)).find? (fun kv' => decide (kv'.1 = k)) = some kv := by
          simp [List.find?, hk]
        simp only [h1]
        rw [if_pos hk.symm]
      · have h1 : ([kv] : List (κ × ν)).find? (fun kv' => decide (kv'.1 = k)) = none := by
          simp [List.find?, hk]
        simp only [h1]
        rw [if_neg (fun he => hk he.symm)]
    · simp only [hfind]

theorem assignAll_eq_find? {κ ν : Type} [DecidableEq κ] (l : List (κ × ν)) (k : κ) :
    assignAll l k
      = match l.reverse.find? (fun kv => kv.1 = k) with
        | some kv => some kv.2
        | none => none :=
  assignAll_foldl_eq l _ k

/-- Key order of a Python dict built by inserting elements of `l` in
order: first-insertion order, duplicates keep their original slot. -/
def pyDedupFirst {α : Type} [DecidableEq α] (l : List α) : List α :=
  l.foldl (fun acc x => if x ∈ acc then acc else acc ++ [x]) []

theorem mem_pyDedupFirst_foldl {α : Type} [DecidableEq α] :
    ∀ (l acc : List α) (x : α),
    x ∈ l.foldl (fun acc' y => if y ∈ acc' then acc' else acc' ++ [y]) acc ↔ x ∈ acc ∨ x ∈ l
  | [], acc, x => by simp
  | y :: t, acc, x => by
    simp only [List.foldl_cons]
    rw [mem_pyDedupFirst_foldl t _ x]
    by_cases hy : y ∈ acc
    · rw [if_pos hy]
      constructor
      · rintro (h | h)
        · exact .inl h
        · exact .inr (by simp [h])
      · rintro (h | h)
        · exact .inl h
        · rcases (by simpa using h : x = y ∨ x ∈ t) with rfl | h'
          · exact .inl hy
          · exact .inr h'
    · rw [if_neg hy]
      simp only [List.mem_append, List.mem_singleton, List.mem_cons]
      tauto

theorem mem_pyDedupFirst {α : Type} [DecidableEq α] (l : List α) (x : α) :
    x ∈ pyDedupFirst l ↔ x ∈ l := by
  rw [pyDedupFirst, mem_pyDedupFirst_foldl]
  simp

/-- The rank dict `self.bpe_codes` of a loaded merge table: the
assignments `[(code, i) for (i, code) in reversed(list(enumerate(lines)))]`
performed in order. -/
def bpe_codes (lines : List SPair) : SPair → Option Nat :=
  assignAll ((lines.enum.reverse).map (fun ic => (ic.2, ic.1)))

/-- The reverse dict `self.bpe_codes_reverse`: assignments
`(pair[0]+pair[1], pair)` over `self.bpe_codes.items()`, whose key order
is the first-insertion order of the reversed enumerated lines. -/
def bpe_codes_reverse (lines : List SPair) : Sym → Option SPair :=
  assignAll ((pyDedupFirst lines.reverse).map (fun p => (p.1 ++ p.2, p)))

theorem find?_enumFrom_eq_indexOf {α : Type} [BEq α] [LawfulBEq α] {p : α} :
    ∀ (l : List α) (k : Nat), p ∈ l →
    (l.enumFrom k).find? (fun ci => ci.2 == p) = some (k + l.indexOf p, p)
  | [], k, hp => by simp at hp
  | x :: t, k, hp => by
    by_cases hx : x = p
    · subst hx
      have h0 : List.indexOf x (x :: t) = 0 := by
        rw [List.indexOf, List.findIdx_cons, beq_self_eq_true]
        rfl
      simp [List.enumFrom, List.find?, h0]
    · have hbx : (x == p) = false := by
        simpa using hx
      have hpt : p ∈ t := by
        rcases List.mem_cons.mp hp with h | h
        · exact absurd h.symm hx
        · exact h
      simp only [List.enumFrom, List.find?, hbx]
      rw [find?_enumFrom_eq_indexOf t (k + 1) hpt]
      have : (x :: t).indexOf p = t.indexOf p + 1 := by
        rw [List.indexOf, List.findIdx_cons, hbx]
        rfl
      rw [this]
      have he : k + 1 + t.indexOf p = k + (t.indexOf p + 1) := by omega
      rw [he]

theorem find?_of_unique {α : Type} (p : α → Bool) (v : α) :
    ∀ l : List α, v ∈ l → p v = true → (∀ x ∈ l, p x = true → x = v) →
    l.find? p = some v
  | [], hv, _, _ => by simp at hv
  | x :: t, hv, hpv, huniq => by
    by_cases hx : p x
    · rw [List.find?_cons_of_pos _ hx, huniq x (by simp) hx]
    · rw [List.find?_cons_of_neg _ hx]
      have hvt : v ∈ t := by
        rcases List.mem_cons.mp hv with h | h
        · exact absurd (h ▸ hpv) hx
        · exact h
      exact find?_of_unique p v t hvt hpv (fun x' hx' => huniq x' (by simp [hx']))

/-- C8 (amended): the rank a loaded table records for a pair (hence its
priority during encoding) is always the line position of the pair's first
occurrence — later duplicate lines never change a rank; and whenever a
single pair of the file concatenates to a given fused symbol, the
reverse-map entry for that symbol is that pair, duplicates or not. -/
theorem bpe_codes_first_occurrence :
    (∀ (lines : List SPair) (p : SPair), p ∈ lines →
      bpe_codes lines p = some (lines.indexOf p))
    ∧ (∀ (lines : List SPair) (p : SPair), p ∈ lines →
      (∀ p' ∈ lines, p'.1 ++ p'.2 = p.1 ++ p.2 → p' = p) →
      bpe_codes_reverse lines (p.1 ++ p.2) = some p) := by
  constructor
  · intro lines p hp
    rw [bpe_codes, assignAll_eq_find?, List.map_reverse, List.reverse_reverse,
      List.find?_map]
    have hpred : ((fun kv : SPair × Nat => decide (kv.1 = p)) ∘ fun ic : Nat × SPair => (ic.2, ic.1))
        = fun ci : Nat × SPair => ci.2 == p := by
      funext ci
      rw [Bool.eq_iff_iff]
      simp
    rw [hpred]
    have henum : lines.enum = lines.enumFrom 0 := rfl
    rw [henum, find?_enumFrom_eq_indexOf lines 0 hp]
    simp
  · intro lines p hp huniq
    rw [bpe_codes_reverse, assignAll_eq_find?, ← List.map_reverse, List.find?_map]
    have hfind : ((pyDedupFirst lines.reverse).reverse).find?
        ((fun kv : Sym × SPair => decide (kv.1 = p.1 ++ p.2)) ∘ fun p' : SPair => (p'.1 ++ p'.2, p'))
        = some p := by
      apply find?_of_unique
      · rw [List.mem_reverse, mem_pyDedupFirst, List.mem_reverse]
        exact hp
      · simp
      · intro x hx hpx
        have hxl : x ∈ lines := by
          rw [List.mem_reverse, mem_pyDedupFirst, List.mem_reverse] at hx
          exact hx
        exact huniq x hxl (by simpa using hpx)
    rw [hfind]
    simp

theorem bpe_codes_first_occurrence_witness :
    bpe_codes [((['a'], ['b']) : SPair), (['c'], ['d']), (['a'], ['b'])] (['a'], ['b']) = some 0
    ∧ bpe_codes_reverse [((['a'], ['b']) : SPair), (['c'], ['d']), (['a'], ['b'])] ['a', 'b']
      = some (['a'], ['b']) := by
  constructor
  · have := bpe_codes_first_occurrence.1
      [((['a'], ['b']) : SPair), (['c'], ['d']), (['a'], ['b'])] (['a'], ['b']) (by decide)
    rw [this]
    decide
  · have := bpe_codes_first_occurrence.2
      [((['a'], ['b']) : SPair), (['c'], ['d']), (['a'], ['b'])] (['a'], ['b']) (by decide)
      (by decide)
    exact this

/-- C8 as stated is false for the reverse map: duplicating the line
`a bc` in a table that also contains `ab c` (two distinct pairs fusing to
the same symbol `abc`) flips the loaded reverse-map entry for `abc` from
`('a','bc')` (the first-occurrence pair) to `('ab','c')`: the later
duplicate line does have an effect. -/
theorem bpe_codes_reverse_duplicate_counterexample :
    bpe_codes [((['a'], ['b', 'c']) : SPair), (['a', 'b'], ['c']), (['a'], ['b', 'c'])]
        (['a'], ['b', 'c']) = some 0
    ∧ bpe_codes_reverse [((['a'], ['b', 'c']) : SPair), (['a', 'b'], ['c'])] ['a', 'b', 'c']
      = some (['a'], ['b', 'c'])
    ∧ bpe_codes_reverse
        [((['a'], ['b', 'c']) : SPair), (['a', 'b'], ['c']), (['a'], ['b', 'c'])] ['a', 'b', 'c']
      = some (['a', 'b'], ['c'])
    ∧ ((['a', 'b'], ['c']) : SPair) ≠ (['a'], ['b', 'c']) := by
  refine ⟨by decide, by decide, by decide, by decide⟩

/-! ## The encoder: `encode` and its merge loop (`apply_bpe.py`) -/

/-- A Python value that is either a string or a tuple of strings: `encode`
returns the raw string on its early path (line 270) and a tuple of symbols
otherwise. -/
inductive PyRes where
  | str : Sym → PyRes
  | tup : List Sym → PyRes
deriving DecidableEq, Repr

/-- The accumulator pass of `min(pairs, key=lambda pair: bpe_codes.get(pair, float('inf')))`
restricted to the ranked pairs: keeps the first pair achieving the least
rank. -/
def minRanked : Option (Nat × SPair) → List (Nat × SPair) → Option (Nat × SPair)
  | acc, [] => acc
  | acc, rp :: t =>
    minRanked
      (match acc with
        | none => some rp
        | some best => if rp.1 < best.1 then some rp else some best) t

/-- The pair fused by one iteration of the `encode` merge loop
(`apply_bpe.py`, lines 273-275): `min` over the present pairs by rank with
unranked pairs keyed `float('inf')`, followed by `if bigram not in
bpe_codes: break`.  A ranked pair is selected iff some present pair is
ranked, and any minimal-rank ranked pair is selected (ties between
distinct unranked pairs are irrelevant: they stop the loop). -/
def bestPair (ranks : SPair → Option Nat) (pl : List SPair) : Option SPair :=
  (minRanked none (pl.filterMap (fun p => (ranks p).map (fun r => (r, p))))).map (fun rp => rp.2)

theorem minRanked_nil (acc : Option (Nat × SPair)) : minRanked acc [] = acc := rfl

theorem minRanked_cons_none (rp : Nat × SPair) (t : List (Nat × SPair)) :
    minRanked none (rp :: t) = minRanked (some rp) t := rfl

theorem minRanked_cons_some (best rp : Nat × SPair) (t : List (Nat × SPair)) :
    minRanked (some best) (rp :: t)
      = minRanked (if rp.1 < best.1 then some rp else some best) t := rfl

theorem minRanked_none_iff : ∀ (l : List (Nat × SPair)) (acc : Option (Nat × SPair)),
    minRanked acc l = none ↔ (acc = none ∧ l = [])
  | [], acc => by rw [minRanked_nil]; simp
  | rp :: t, acc => by
    rcases acc with _ | best
    · rw [minRanked_cons_none, minRanked_none_iff t (some rp)]
      simp
    · rw [minRanked_cons_some, minRanked_none_iff t _]
      constructor
      · intro ⟨h, _⟩
        by_cases hlt : rp.1 < best.1 <;> simp [hlt] at h
      · intro ⟨h, _⟩
        exact absurd h (by simp)

theorem minRanked_spec : ∀ (l : List (Nat × SPair)) (acc : Option (Nat × SPair)) (rp : Nat × SPair),
    minRanked acc l = some rp →
    (acc = some rp ∨ rp ∈ l) ∧ (∀ x ∈ l, rp.1 ≤ x.1) ∧ (∀ a, acc = some a → rp.1 ≤ a.1)
  | [], acc, rp => by
    intro h
    rw [minRanked_nil] at h
    refine ⟨.inl h, by simp, fun a ha => ?_⟩
    rw [ha] at h
    simp only [Option.some.injEq] at h
    exact le_of_eq (congrArg Prod.fst h.symm)
  | x :: t, acc, rp => by
    intro h
    rcases acc with _ | best
    · rw [minRanked_cons_none] at h
      obtain ⟨hmem, hmin, hacc⟩ := minRanked_spec t (some x) rp h
      refine ⟨.inr ?_, ?_, by simp⟩
      · rcases hmem with h' | h'
        · simp only [Option.some.injEq] at h'
          simp [h']
        · simp [h']
      · intro y hy
        rcases List.mem_cons.mp hy with rfl | hy'
        · exact hacc y rfl
        · exact hmin y hy'
    · rw [minRanked_cons_some] at h
      by_cases hlt : x.1 < best.1
      · rw [if_pos hlt] at h
        obtain ⟨hmem, hmin, hacc⟩ := minRanked_spec t (some x) rp h
        refine ⟨?_, ?_, ?_⟩
        · rcases hmem with h' | h'
          · exact .inr (by simp only [Option.some.injEq] at h'; simp [h'])
          · exact .inr (by simp [h'])
        · intro y hy
          rcases List.mem_cons.mp hy with rfl | hy'
          · exact hacc y rfl
          · exact hmin y hy'
        · intro a ha
          have hx := hacc x rfl
          simp only [Option.some.injEq] at ha
          rw [← ha]
          omega
      · rw [if_neg hlt] at h
        obtain ⟨hmem, hmin, hacc⟩ := minRanked_spec t (some best) rp h
        refine ⟨?_, ?_, ?_⟩
        · rcases hmem with h' | h'
          · exact .inl h'
          · exact .inr (by simp [h'])
        · intro y hy
          rcases List.mem_cons.mp hy with rfl | hy'
          · have := hacc best rfl
            omega
          · exact hmin y hy'
        · intro a ha
          simp only [Option.some.injEq] at ha
          exact ha ▸ hacc best rfl

theorem bestPair_none_iff (ranks : SPair → Option Nat) (pl : List SPair) :
    bestPair ranks pl = none ↔ ∀ q ∈ pl, ranks q = none := by
  rw [bestPair, Option.map_eq_none', minRanked_none_iff]
  simp only [true_and, List.filterMap_eq_nil]
  constructor
  · intro h q hq
    have := h q hq
    rcases hr : ranks q with _ | r
    · rfl
    · rw [hr] at this; simp at this
  · intro h q hq
    rw [h q hq]
    rfl

theorem bestPair_spec (ranks : SPair → Option Nat) (pl : List SPair) (p : SPair)
    (h : bestPair ranks pl = some p) :
    p ∈ pl ∧ ∃ r, ranks p = some r ∧ ∀ q ∈ pl, ∀ rq, ranks q = some rq → r ≤ rq := by
  rw [bestPair] at h
  rcases hm : minRanked none (pl.filterMap (fun p => (ranks p).map (fun r => (r, p)))) with _ | rp
  · rw [hm] at h; simp at h
  rw [hm] at h
  simp only [Option.map_some', Option.some.injEq] at h
  subst h
  obtain ⟨hmem, hmin, _⟩ := minRanked_spec _ none rp hm
  rcases hmem with h' | h'
  · simp at h'
  · obtain ⟨q, hq, hfq⟩ := List.mem_filterMap.mp h'
    rcases hr : ranks q with _ | r
    · rw [hr] at hfq; simp at hfq
    · rw [hr] at hfq
      simp only [Option.map_some', Option.some.injEq] at hfq
      obtain ⟨h1, h2⟩ := Prod.mk.injEq .. ▸ hfq
      refine ⟨?_, rp.1, ?_, ?_⟩
      · exact h2 ▸ hq
      · rw [← h2, hr, h1]
      · intro q' hq' rq' hrq'
        exact hmin (rq', q') (List.mem_filterMap.mpr ⟨q', hq', by rw [hrq']; rfl⟩)

/-- The `while True` merge loop of `encode` (`apply_bpe.py`, lines
272-300), with the number of remaining passes made explicit: each executed
pass strictly shortens the word (`mergeAll_length_lt`), so `word.length`
passes always suffice (`encode_loop_eq` below recovers the unfueled
recursion). -/
def encode_loop_fuel (ranks : SPair → Option Nat) : Nat → List Sym → List Sym
  | 0, w => w
  | n+1, w =>
    match bestPair ranks (pairsList w) with
    | none => w
    | some p =>
      let w' := mergeAll p.1 p.2 w
      if w'.length = 1 then w' else encode_loop_fuel ranks n w'

def encode_loop (ranks : SPair → Option Nat) (w : List Sym) : List Sym :=
  encode_loop_fuel ranks w.length w

theorem bestPair_mem_pairs (ranks : SPair → Option Nat) (w : List Sym) (p : SPair)
    (h : bestPair ranks (pairsList w) = some p) : (p.1, p.2) ∈ pairsList w := by
  have := (bestPair_spec ranks (pairsList w) p h).1
  simpa using this

theorem encode_loop_fuel_irrel (ranks : SPair → Option Nat) :
    ∀ (n m : Nat) (w : List Sym), w.length ≤ n → w.length ≤ m →
    encode_loop_fuel ranks n w = encode_loop_fuel ranks m w
  | 0, m, w, hn, hm => by
    have hw : w = [] := List.length_eq_zero.mp (Nat.le_zero.mp hn)
    subst hw
    have hb : bestPair ranks (pairsList []) = none := by
      rw [bestPair_none_iff]
      simp
    cases m with
    | zero => rfl
    | succ m => rw [encode_loop_fuel, encode_loop_fuel, hb]
  | n+1, 0, w, hn, hm => by
    have hw : w = [] := List.length_eq_zero.mp (Nat.le_zero.mp hm)
    subst hw
    have hb : bestPair ranks (pairsList []) = none := by
      rw [bestPair_none_iff]
      simp
    rw [encode_loop_fuel, encode_loop_fuel, hb]
  | n+1, m+1, w, hn, hm => by
    rw [encode_loop_fuel, encode_loop_fuel]
    rcases hb : bestPair ranks (pairsList w) with _ | p
    · rfl
    · have hlt := mergeAll_length_lt p.1 p.2 w (bestPair_mem_pairs ranks w p hb)
      simp only
      by_cases h1 : (mergeAll p.1 p.2 w).length = 1
      · rw [if_pos h1, if_pos h1]
      · rw [if_neg h1, if_neg h1]
        exact encode_loop_fuel_irrel ranks n m (mergeAll p.1 p.2 w) (by omega) (by omega)

/-- The merge loop satisfies its intended recursion. -/
theorem encode_loop_eq (ranks : SPair → Option Nat) (w : List Sym) :
    encode_loop ranks w =
      match bestPair ranks (pairsList w) with
      | none => w
      | some p =>
        if (mergeAll p.1 p.2 w).length = 1 then mergeAll p.1 p.2 w
        else encode_loop ranks (mergeAll p.1 p.2 w) := by
  rcases hb : bestPair ranks (pairsList w) with _ | p
  · rw [encode_loop]
    cases hw : w.length with
    | zero =>
      have : w = [] := List.length_eq_zero.mp hw
      subst this
      rfl
    | succ n => rw [encode_loop_fuel, hb]
  · have hmem := bestPair_mem_pairs ranks w p hb
    have hlt := mergeAll_length_lt p.1 p.2 w hmem
    have hpos : 1 ≤ w.length := by omega
    rw [encode_loop]
    rcases hw : w.length with _ | n
    · omega
    · rw [encode_loop_fuel, hb]
      simp only
      by_cases h1 : (mergeAll p.1 p.2 w).length = 1
      · rw [if_pos h1, if_pos h1]
      · rw [if_neg h1, if_neg h1, encode_loop]
        exact encode_loop_fuel_irrel ranks n _ (mergeAll p.1 p.2 w) (by omega) le_rfl

/-- Building the initial word (`encode`, `apply_bpe.py` lines 260-265):
version 0.1 appends the marker as its own symbol; version 0.2 fuses it
onto the last character (`orig[-1]` raises `IndexError` on the empty
string); any other version raises `NotImplementedError`. -/
def initWord (version : Nat × Nat) (orig : Sym) : Except String (List Sym) :=
  if version = (0, 1) then
    .ok (orig.map (fun c => [c]) ++ [endword])
  else if version = (0, 2) then
    match orig.getLast? with
    | none => .error "IndexError: string index out of range"
    | some c => .ok (orig.dropLast.map (fun ch => [ch]) ++ [c :: endword])
  else .error "NotImplementedError"

/-- `word[-1].replace(endword, '')`: Python `str.replace` removes every
non-overlapping occurrence of `'</w>'`, scanning left to right. -/
def removeEndword : Sym → Sym
  | '<' :: '/' :: 'w' :: '>' :: t => removeEndword t
  | c :: t => c :: removeEndword t
  | [] => []

/-- Dropping the end-of-word marker from the encoded word (`encode`,
lines 302-306).  The word reaching this point is never empty (the empty
input returns early), so the `word[-1]` accesses are safe; on an empty
word we return it unchanged. -/
def stripEnd (w : List Sym) : List Sym :=
  match w.getLast? with
  | none => w
  | some last =>
    if last = endword then w.dropLast
    else if endword.isSuffixOf last then w.dropLast ++ [removeEndword last]
    else w

/-- The comparison `word == unkchar` (`apply_bpe.py`, line 308) compares a
tuple of symbols with a string; in Python a tuple never compares equal to
a string, so this comparison is identically `False`. -/
def pyTupleEqStr (_ : List Sym) (_ : Sym) : Bool := false

/-- `recursive_split(segment, bpe_codes, vocab, separator, final)`
(`apply_bpe.py`, lines 317-342), with the recursion depth made explicit:
`none` models a Python `RecursionError` (the recursion exceeds every
finite depth exactly when the function diverges for every fuel).  The
failed dict lookup (caught by the bare `except`) yields the segment
as-is; a final lookup uses `segment + '</w>'` and drops the last four
characters of the right half (`right[:-4]`). -/
def recursive_split (reverse : Sym → Option SPair) (vocab : List Sym) (separator : Sym) :
    Nat → Sym → Bool → Option (List Sym)
  | 0, _, _ => none
  | n+1, segment, final =>
    match (if final then
            (reverse (segment ++ endword)).map (fun lr => (lr.1, lr.2.take (lr.2.length - 4)))
          else reverse segment) with
    | none => some [segment]
    | some lr =>
      match (if lr.1 ++ separator ∈ vocab then some [lr.1]
             else recursive_split reverse vocab separator n lr.1 false),
            (if (final ∧ lr.2 ∈ vocab) ∨ (¬final ∧ lr.2 ++ separator ∈ vocab) then some [lr.2]
             else recursive_split reverse vocab separator n lr.2 final) with
      | some ls, some rs => some (ls ++ rs)
      | _, _ => none

/-- `check_vocab_and_split(orig, bpe_codes, vocab, separator)`
(`apply_bpe.py`, lines 345-367): every symbol but the last is kept if
`symbol+separator` is in the vocabulary and recursively split otherwise;
the last symbol is checked bare and split with `final=True`.  `encode`
never passes an empty tuple here (the empty input returns early), so the
`orig[-1]` access is safe. -/
def check_vocab_and_split (reverse : Sym → Option SPair) (vocab : List Sym) (separator : Sym)
    (fuel : Nat) (orig : List Sym) : Option (List Sym) :=
  match orig.getLast? with
  | none => some []
  | some lastSeg =>
    match orig.dropLast.mapM (fun segment =>
        if segment ++ separator ∈ vocab then some [segment]
        else recursive_split reverse vocab separator fuel segment false) with
    | none => none
    | some parts =>
      match (if lastSeg ∈ vocab then some [lastSeg]
             else recursive_split reverse vocab separator fuel lastSeg true) with
      | none => none
      | some finalPart => some (parts.join ++ finalPart)

/-- `encode` (`apply_bpe.py`, lines 253-314).  The cache is omitted: the
function is pure, so `cache[orig]` only ever replays the same
computation.  `.error` marks the paths on which the Python code raises
(`IndexError` for version 0.2 on the empty string, `NotImplementedError`
for unsupported versions, `NameError` on the dead unknown-marker branch
whose replacement value `unkword` is an undefined name, `RecursionError`
when vocabulary-restricted splitting exceeds every recursion depth). -/
def encode (version : Nat × Nat) (ranks : SPair → Option Nat) (reverse : Sym → Option SPair)
    (vocab : Option (List Sym)) (separator : Sym) (unkchar unktag : Sym) (fuel : Nat)
    (orig : Sym) : Except String PyRes :=
  match initWord version orig with
  | .error e => .error e
  | .ok word₀ =>
    if pairsList word₀ = [] then .ok (.str orig)
    else
      let word₂ := stripEnd (encode_loop ranks word₀)
      if unktag ≠ [] ∧ pyTupleEqStr word₂ unkchar then
        .error "NameError: name unkword is not defined"
      else
        match vocab with
        | some v =>
          if v ≠ [] then
            match check_vocab_and_split reverse v separator fuel word₂ with
            | some out => .ok (.tup out)
            | none => .error "RecursionError: maximum recursion depth exceeded"
          else .ok (.tup word₂)
        | none => .ok (.tup word₂)

/-- C3: in every iteration of the encode merge loop, the fused pair is
present in the word and has minimal rank among all present ranked pairs;
the loop performs one left-to-right non-overlapping fusion pass
(`mergeAll`, after which no occurrence of the fused pair remains) and
stops exactly when no present pair is ranked or a single symbol remains. -/
theorem encode_loop_lowest_rank :
    (∀ (ranks : SPair → Option Nat) (w : List Sym) (p : SPair),
      bestPair ranks (pairsList w) = some p →
      p ∈ pairsList w
        ∧ ∃ r, ranks p = some r ∧ ∀ q ∈ pairsList w, ∀ rq, ranks q = some rq → r ≤ rq)
    ∧ (∀ (ranks : SPair → Option Nat) (w : List Sym),
      bestPair ranks (pairsList w) = none ↔ ∀ q ∈ pairsList w, ranks q = none)
    ∧ (∀ (ranks : SPair → Option Nat) (w : List Sym),
      encode_loop ranks w =
        match bestPair ranks (pairsList w) with
        | none => w
        | some p =>
          if (mergeAll p.1 p.2 w).length = 1 then mergeAll p.1 p.2 w
          else encode_loop ranks (mergeAll p.1 p.2 w))
    ∧ (∀ (A B : Sym) (w : List Sym), A ≠ [] → B ≠ [] → pc (mergeAll A B w) (A, B) = 0) := by
  refine ⟨fun ranks w p h => bestPair_spec ranks (pairsList w) p h,
    fun ranks w => bestPair_none_iff ranks (pairsList w),
    fun ranks w => encode_loop_eq ranks w,
    fun A B w hA hB => ?_⟩
  apply pc_mergeAll_pair
  · intro he
    have := congrArg List.length he
    simp only [List.length_append] at this
    exact hB (List.length_eq_zero.mp (by omega))
  · intro he
    have := congrArg List.length he
    simp only [List.length_append] at this
    exact hA (List.length_eq_zero.mp (by omega))

theorem encode_loop_lowest_rank_witness :
    (['a'], ['b']) ∈ pairsList [['a'], ['b'], ['c']]
      ∧ ∃ r, bpe_codes [((['a'], ['b']) : SPair)] (['a'], ['b']) = some r
          ∧ ∀ q ∈ pairsList [['a'], ['b'], ['c']], ∀ rq,
              bpe_codes [((['a'], ['b']) : SPair)] q = some rq → r ≤ rq :=
  encode_loop_lowest_rank.1 (bpe_codes [((['a'], ['b']) : SPair)])
    [['a'], ['b'], ['c']] (['a'], ['b']) (by decide)

/-- C5 as stated is false: for version 0.2 the empty word does not come
back unchanged — `orig[-1]` raises `IndexError` before any pair is
computed. -/
theorem encode_empty_v02_counterexample :
    encode (0, 2) (fun _ => none) (fun _ => none) none ['@', '@'] [Char.ofNat 64986]
        ['<', 'u', 'n', 'k', '>'] 0 []
      = .error "IndexError: string index out of range"
    ∧ (Except.error "IndexError: string index out of range" : Except String PyRes)
      ≠ .ok (.str []) := by
  exact ⟨rfl, by simp⟩

/-- C5 (amended): for version 0.1, encoding the empty word builds the
one-symbol word `['</w>']`, whose pair set is empty, and returns the
empty word unchanged for every merge table and configuration; for
version 0.2 the final-character indexing fails on the empty word. -/
theorem encode_empty_word (ranks : SPair → Option Nat) (reverse : Sym → Option SPair)
    (vocab : Option (List Sym)) (separator unkchar unktag : Sym) (fuel : Nat) :
    initWord (0, 1) [] = .ok [endword]
    ∧ pairsList [endword] = []
    ∧ encode (0, 1) ranks reverse vocab separator unkchar unktag fuel [] = .ok (.str [])
    ∧ encode (0, 2) ranks reverse vocab separator unkchar unktag fuel []
      = .error "IndexError: string index out of range" :=
  ⟨rfl, rfl, rfl, rfl⟩

/-- C6 is a code bug: the guard `word == unkchar` compares a tuple of
symbols to a string, which is always `False` in Python (and the branch
body names the undefined `unkword`), so even the single-character word
consisting of the unknown marker is returned as itself, never replaced by
the unknown tag. -/
theorem encode_unkchar_never_replaced :
    encode (0, 1) (fun _ => none) (fun _ => none) none ['@', '@'] [Char.ofNat 64986]
        ['<', 'u', 'n', 'k', '>'] 0 [Char.ofNat 64986]
      = .ok (.tup [[Char.ofNat 64986]])
    ∧ ([[Char.ofNat 64986]] : List Sym) ≠ [['<', 'u', 'n', 'k', '>']]
    ∧ ∀ (w : List Sym) (u : Sym), pyTupleEqStr w u = false := by
  refine ⟨rfl, by decide, fun w u => rfl⟩

/-- Any hit in the loaded reverse map is a pair of the file whose
concatenation is the looked-up symbol. -/
theorem bpe_codes_reverse_spec (lines : List SPair) (s : Sym) (p : SPair)
    (h : bpe_codes_reverse lines s = some p) : p ∈ lines ∧ p.1 ++ p.2 = s := by
  rw [bpe_codes_reverse, assignAll_eq_find?] at h
  rcases hf : ((pyDedupFirst lines.reverse).map (fun p => (p.1 ++ p.2, p))).reverse.find?
      (fun kv => kv.1 = s) with _ | kv
  · rw [hf] at h; simp at h
  · rw [hf] at h
    simp only [Option.some.injEq] at h
    subst h
    have hmem := List.mem_of_find?_eq_some hf
    have hpred := List.find?_some hf
    rw [List.mem_reverse, List.mem_map] at hmem
    obtain ⟨p', hp', hfp⟩ := hmem
    rw [← hfp] at hpred ⊢
    simp only [decide_eq_true_eq] at hpred
    rw [mem_pyDedupFirst, List.mem_reverse] at hp'
    exact ⟨hp', hpred⟩

/-- The merge table used in the C10 counterexample: the two lines
`x</ w>` and `< /w>`, whose reverse map sends `x</w>` to `('x</', 'w>')`
and the bare marker `</w>` to `('<', '/w>')`. -/
def badLines : List SPair := [(['x', '<', '/'], ['w', '>']), (['<'], ['/', 'w', '>'])]

theorem recursive_split_empty_diverges :
    ∀ n : Nat, recursive_split (bpe_codes_reverse badLines) [['z']] ['@', '@'] n [] true = none
  | 0 => rfl
  | n+1 => by
    have ih := recursive_split_empty_diverges n
    show (match recursive_split (bpe_codes_reverse badLines) [['z']] ['@', '@'] n ['<'] false,
            recursive_split (bpe_codes_reverse badLines) [['z']] ['@', '@'] n [] true with
          | some ls, some rs => some (ls ++ rs)
          | _, _ => none) = none
    rw [ih]
    rcases recursive_split (bpe_codes_reverse badLines) [['z']] ['@', '@'] n ['<'] false with
      _ | ls <;> rfl

theorem recursive_split_x_diverges :
    ∀ n : Nat, recursive_split (bpe_codes_reverse badLines) [['z']] ['@', '@'] n ['x'] true = none
  | 0 => rfl
  | n+1 => by
    show (match
            recursive_split (bpe_codes_reverse badLines) [['z']] ['@', '@'] n ['x', '<', '/'] false,
            recursive_split (bpe_codes_reverse badLines) [['z']] ['@', '@'] n [] true with
          | some ls, some rs => some (ls ++ rs)
          | _, _ => none) = none
    rw [recursive_split_empty_diverges n]
    rcases recursive_split (bpe_codes_reverse badLines) [['z']] ['@', '@'] n ['x', '<', '/'] false
      with _ | ls <;> rfl

/-- C10 as stated is false: with the loaded merge table `x</ w>`, `< /w>`
(whose listed pairs are not ranked in creation order and give the reverse
map an entry for the bare end-of-word marker), vocabulary `{z}`, encoding
the word `x` exceeds every recursion depth inside vocabulary-restricted
`recursive_split`: `right[:-4]` produces the empty segment, whose
`final`-lookup of `'' + '</w>'` hits the `</w>` entry and recurses on the
empty segment forever.  For every recursion-depth budget the embedded
`encode` reports the `RecursionError`. -/
theorem encode_divergence_counterexample :
    (∀ fuel : Nat,
      encode (0, 1) (bpe_codes badLines) (bpe_codes_reverse badLines) (some [['z']])
        ['@', '@'] [Char.ofNat 64986] ['<', 'u', 'n', 'k', '>'] fuel ['x']
      = .error "RecursionError: maximum recursion depth exceeded")
    ∧ (Except.error "RecursionError: maximum recursion depth exceeded" : Except String PyRes)
      ≠ .ok (.tup [['x']]) := by
  refine ⟨fun fuel => ?_, by simp⟩
  have hcvs : check_vocab_and_split (bpe_codes_reverse badLines) [['z']] ['@', '@'] fuel [['x']]
      = none := by
    rw [check_vocab_and_split]
    simp only [List.getLast?_singleton, List.dropLast_single, List.mapM_nil]
    rw [show ((if (['x'] : Sym) ∈ [(['z'] : Sym)] then some [(['x'] : Sym)]
        else recursive_split (bpe_codes_reverse badLines) [['z']] ['@', '@'] fuel ['x'] true))
      = recursive_split (bpe_codes_reverse badLines) [['z']] ['@', '@'] fuel ['x'] true from
      if_neg (by decide)]
    rw [recursive_split_x_diverges fuel]
  have hpre : encode (0, 1) (bpe_codes badLines) (bpe_codes_reverse badLines) (some [['z']])
      ['@', '@'] [Char.ofNat 64986] ['<', 'u', 'n', 'k', '>'] fuel ['x']
      = match check_vocab_and_split (bpe_codes_reverse badLines) [['z']] ['@', '@'] fuel
          [['x']] with
        | some out => .ok (.tup out)
        | none => .error "RecursionError: maximum recursion depth exceeded" := rfl
  rw [hpre, hcvs]

/-- Fuel sufficiency for `recursive_split` under a well-formed reverse
map with no entry for the bare end-of-word marker. -/
theorem recursive_split_fuel_sufficient (reverse : Sym → Option SPair)
    (hspec : ∀ s p, reverse s = some p → p.1 ++ p.2 = s ∧ p.1 ≠ [] ∧ p.2 ≠ [])
    (hnokey : reverse endword = none) (vocab : List Sym) (separator : Sym) :
    ∀ (fuel : Nat) (segment : Sym) (final : Bool),
      (if final then segment.length + 5 else segment.length + 1) ≤ fuel →
      recursive_split reverse vocab separator fuel segment final ≠ none := by
  intro fuel
  induction fuel with
  | zero =>
    intro segment final hb
    exfalso
    rcases final with _ | _ <;> simp at hb <;> omega
  | succ n ih =>
    intro segment final hb
    rw [recursive_split]
    rcases final with _ | _
    · -- final = false
      simp only [Bool.false_eq_true, if_false] at hb ⊢
      rcases hrev : reverse segment with _ | lr
      · simp
      · obtain ⟨hcat, hl, hr⟩ := hspec segment lr hrev
        have hlen : lr.1.length + lr.2.length = segment.length := by
          have := congrArg List.length hcat
          simpa using this
        have hlpos : 1 ≤ lr.1.length := List.length_pos.mpr hl
        have hrpos : 1 ≤ lr.2.length := List.length_pos.mpr hr
        have hL : (if lr.1 ++ separator ∈ vocab then some [lr.1]
            else recursive_split reverse vocab separator n lr.1 false) ≠ none := by
          by_cases hv : lr.1 ++ separator ∈ vocab
          · rw [if_pos hv]; simp
          · rw [if_neg hv]
            exact ih lr.1 false (by simp only [Bool.false_eq_true, if_false]; omega)
        have hR : (if ((false : Bool) ∧ lr.2 ∈ vocab)
              ∨ (¬(false : Bool) ∧ lr.2 ++ separator ∈ vocab) then some [lr.2]
            else recursive_split reverse vocab separator n lr.2 false) ≠ none := by
          by_cases hv : ((false : Bool) ∧ lr.2 ∈ vocab)
              ∨ (¬(false : Bool) ∧ lr.2 ++ separator ∈ vocab)
          · rw [if_pos hv]; simp
          · rw [if_neg hv]
            exact ih lr.2 false (by simp only [Bool.false_eq_true, if_false]; omega)
        obtain ⟨ls, hls⟩ := Option.ne_none_iff_exists'.mp hL
        obtain ⟨rs, hrs⟩ := Option.ne_none_iff_exists'.mp hR
        simp only [Bool.false_eq_true, false_and, not_false_eq_true, true_and, false_or]
          at hrs ⊢
        rw [hls, hrs]
        simp
    · -- final = true
      simp only [if_true] at hb ⊢
      rcases hrev : reverse (segment ++ endword) with _ | lr
      · simp
      · obtain ⟨hcat, hl, hr⟩ := hspec _ lr hrev
        have hlen : lr.1.length + lr.2.length = segment.length + 4 := by
          have := congrArg List.length hcat
          simpa [endword] using this
        have hlpos : 1 ≤ lr.1.length := List.length_pos.mpr hl
        have hrpos : 1 ≤ lr.2.length := List.length_pos.mpr hr
        simp only [Option.map_some']
        have hL : (if lr.1 ++ separator ∈ vocab then some [lr.1]
            else recursive_split reverse vocab separator n lr.1 false) ≠ none := by
          by_cases hv : lr.1 ++ separator ∈ vocab
          · rw [if_pos hv]; simp
          · rw [if_neg hv]
            exact ih lr.1 false (by simp only [Bool.false_eq_true, if_false]; omega)
        have hR : (if ((true : Bool) ∧ lr.2.take (lr.2.length - 4) ∈ vocab)
              ∨ (¬(true : Bool) ∧ lr.2.take (lr.2.length - 4) ++ separator ∈ vocab)
            then some [lr.2.take (lr.2.length - 4)]
            else recursive_split reverse vocab separator n (lr.2.take (lr.2.length - 4)) true)
            ≠ none := by
          by_cases hv : ((true : Bool) ∧ lr.2.take (lr.2.length - 4) ∈ vocab)
              ∨ (¬(true : Bool) ∧ lr.2.take (lr.2.length - 4) ++ separator ∈ vocab)
          · rw [if_pos hv]; simp
          · rw [if_neg hv]
            have htlen : (lr.2.take (lr.2.length - 4)).length = lr.2.length - 4 := by
              rw [List.length_take]
              omega
            by_cases hz : lr.2.length - 4 = 0
            · have hempty : lr.2.take (lr.2.length - 4) = [] := by
                rw [hz]
                exact List.take_zero lr.2
              rw [hempty]
              rcases n with _ | m
              · omega
              · rw [recursive_split]
                rw [show ([] : Sym) ++ endword = endword from rfl, hnokey]
                simp
            · exact ih (lr.2.take (lr.2.length - 4)) true (by rw [if_pos rfl, htlen]; omega)
        obtain ⟨ls, hls⟩ := Option.ne_none_iff_exists'.mp hL
        obtain ⟨rs, hrs⟩ := Option.ne_none_iff_exists'.mp hR
        simp only [true_and, not_true, false_and, or_false] at hrs ⊢
        rw [hls, hrs]
        simp

/-- C10 (amended): each executed fusion pass of the merge loop strictly
decreases the number of symbols (so the loop always terminates); every
reverse-map entry of a loaded table with non-empty line symbols maps a
fused symbol to two non-empty components concatenating to it, so the
`final=False` recursion of `recursive_split` always descends to strictly
shorter strings; and vocabulary-restricted splitting terminates within a
linear recursion-depth budget provided the reverse map has no entry for
the bare end-of-word marker `</w>` — without that proviso `encode` can
recurse forever, as the counterexample table shows, because `right[:-4]`
then loops on the empty segment. -/
theorem encode_termination :
    (∀ (A B : Sym) (w : List Sym), (A, B) ∈ pairsList w → (mergeAll A B w).length < w.length)
    ∧ (∀ lines : List SPair, (∀ p ∈ lines, p.1 ≠ [] ∧ p.2 ≠ []) →
        ∀ (s : Sym) (p : SPair), bpe_codes_reverse lines s = some p →
          p.1 ++ p.2 = s ∧ p.1 ≠ [] ∧ p.2 ≠ [])
    ∧ (∀ reverse : Sym → Option SPair,
        (∀ s p, reverse s = some p → p.1 ++ p.2 = s ∧ p.1 ≠ [] ∧ p.2 ≠ []) →
        reverse endword = none →
        ∀ (vocab : List Sym) (separator : Sym) (fuel : Nat) (segment : Sym) (final : Bool),
          (if final then segment.length + 5 else segment.length + 1) ≤ fuel →
          recursive_split reverse vocab separator fuel segment final ≠ none) := by
  refine ⟨mergeAll_length_lt, ?_, recursive_split_fuel_sufficient⟩
  intro lines hwf s p h
  obtain ⟨hmem, hcat⟩ := bpe_codes_reverse_spec lines s p h
  exact ⟨hcat, (hwf p hmem).1, (hwf p hmem).2⟩

theorem encode_termination_witness :
    (mergeAll ['a'] ['b'] [['a'], ['b'], ['c']]).length < ([['a'], ['b'], ['c']] : List Sym).length
    ∧ recursive_split (bpe_codes_reverse [((['a'], ['b']) : SPair)]) [] ['@', '@'] 6 ['a'] true
      ≠ none :=
  ⟨encode_termination.1 ['a'] ['b'] [['a'], ['b'], ['c']] (by decide),
   encode_termination.2.2 (bpe_codes_reverse [((['a'], ['b']) : SPair)])
     (fun s p h => encode_termination.2.1 [((['a'], ['b']) : SPair)] (by decide) s p h)
     (by decide) [] ['@', '@'] 6 ['a'] true (by decide)⟩

/-! ## Glossary isolation and `BPE.pieces` (`apply_bpe.py`, lines 157-195) -/

/-- The alternative of the compiled glossary alternation that matches at
the current position: Python tries the alternatives in list order (the
escaped literal glossaries, in their given order) and takes the first
that matches.  The empty string never matches (glossaries are non-empty
command-line strings). -/
def glossaryAt (gs : List Sym) (s : Sym) : Option Sym :=
  gs.find? (fun g => g ≠ [] ∧ g.isPrefixOf s)

/-- `self.glossary_re.split(word)` (`BPE._isolate_glossaries`): `re.split`
with one capturing group emits, alternately, the (possibly empty)
unmatched span and the matched glossary, scanning positions left to
right, and finishes with the (possibly empty) remainder after the last
match.  Fuel: one unit per scanned position; `word.length` units always
suffice since a match consumes at least one character. -/
def reSplitF (gs : List Sym) : Nat → Sym → Sym → List Sym
  | _, pending, [] => [pending]
  | 0, pending, rest => [pending ++ rest]
  | n+1, pending, c :: t =>
    match glossaryAt gs (c :: t) with
    | some g => pending :: g :: reSplitF gs n [] ((c :: t).drop g.length)
    | none => reSplitF gs n (pending ++ [c]) t

def isolate_glossaries (gs : List Sym) (w : Sym) : List Sym :=
  reSplitF gs w.length [] w

/-- The separator-attaching loop at the end of `BPE.pieces` (lines
177-182): every token except the last gets the separator appended. -/
def attachSeps (separator : Sym) : List Sym → List Sym
  | [] => []
  | [x] => [x]
  | x :: t => (x ++ separator) :: attachSeps separator t

/-- The segment loop of `BPE.pieces` (lines 159-176): the isolation flag
alternates with each segment (matches are the odd-position segments),
empty segments are skipped, isolated segments pass through verbatim, and
the rest are encoded.  When `encode` returns a raw string (its early
path), `new_word += ...` extends with its characters. -/
def piecesSegs (version : Nat × Nat) (ranks : SPair → Option Nat)
    (reverse : Sym → Option SPair) (vocab : Option (List Sym)) (separator : Sym)
    (unkchar unktag : Sym) (fuel : Nat) : Bool → List Sym → Except String (List Sym)
  | _, [] => .ok []
  | isolated, seg :: rest =>
    if seg.length = 0 then
      piecesSegs version ranks reverse vocab separator unkchar unktag fuel (!isolated) rest
    else if isolated then
      match piecesSegs version ranks reverse vocab separator unkchar unktag fuel (!isolated) rest with
      | .error e => .error e
      | .ok tail => .ok (seg :: tail)
    else
      match encode version ranks reverse vocab separator unkchar unktag fuel seg with
      | .error e => .error e
      | .ok res =>
        match piecesSegs version ranks reverse vocab separator unkchar unktag fuel (!isolated) rest with
        | .error e => .error e
        | .ok tail =>
          .ok ((match res with
                | .str s => s.map (fun c => [c])
                | .tup l => l) ++ tail)

/-- `BPE.pieces(word)`: glossary isolation, per-segment encoding, then
separator attachment. -/
def pieces (version : Nat × Nat) (ranks : SPair → Option Nat) (reverse : Sym → Option SPair)
    (vocab : Option (List Sym)) (separator : Sym) (gs : List Sym) (unkchar unktag : Sym)
    (fuel : Nat) (word : Sym) : Except String (List Sym) :=
  match piecesSegs version ranks reverse vocab separator unkchar unktag fuel false
      (isolate_glossaries gs word) with
  | .error e => .error e
  | .ok new_word => .ok (attachSeps separator new_word)

/-- C9 as stated is false on the letter of the isolation function:
`re.split` appends a trailing empty segment when the word ends with a
match, so `'1934USABUSA'` is isolated into five segments, not four. -/
theorem isolate_glossaries_counterexample :
    isolate_glossaries [['U', 'S', 'A']] ['1', '9', '3', '4', 'U', 'S', 'A', 'B', 'U', 'S', 'A']
      = [['1', '9', '3', '4'], ['U', 'S', 'A'], ['B'], ['U', 'S', 'A'], []]
    ∧ isolate_glossaries [['U', 'S', 'A']] ['1', '9', '3', '4', 'U', 'S', 'A', 'B', 'U', 'S', 'A']
      ≠ [['1', '9', '3', '4'], ['U', 'S', 'A'], ['B'], ['U', 'S', 'A']] := by
  exact ⟨by decide, by decide⟩

/-- C9 (amended): glossary isolation of `'1934USABUSA'` with glossary
`{USA}` yields the segments `['1934', 'USA', 'B', 'USA', '']` — the four
claimed segments plus the trailing empty segment `re.split` appends —
and `pieces` skips empty segments and emits each `USA` match as one
untouched token at its original position while the unmatched spans are
BPE-encoded (here, with an empty merge table, into characters). -/
theorem isolate_glossaries_usa :
    isolate_glossaries [['U', 'S', 'A']] ['1', '9', '3', '4', 'U', 'S', 'A', 'B', 'U', 'S', 'A']
      = [['1', '9', '3', '4'], ['U', 'S', 'A'], ['B'], ['U', 'S', 'A'], []]
    ∧ pieces (0, 1) (fun _ => none) (fun _ => none) none ['@', '@'] [['U', 'S', 'A']]
        [Char.ofNat 64986] ['<', 'u', 'n', 'k', '>'] 0
        ['1', '9', '3', '4', 'U', 'S', 'A', 'B', 'U', 'S', 'A']
      = .ok [['1', '@', '@'], ['9', '@', '@'], ['3', '@', '@'], ['4', '@', '@'],
             ['U', 'S', 'A', '@', '@'], ['B', '@', '@'], ['U', 'S', 'A']] := by
  exact ⟨by decide, rfl⟩

/-! ## `get_vocabulary` and the `main` learning entry (`learn_bpe.py`) -/

/-- Python `int(...)` on a whitespace-stripped token: an optional sign
followed by decimal digits. -/
def pyInt (s : Sym) : Except String Int :=
  let digits : Sym → Option Nat := fun ds =>
    if ds = [] then none
    else ds.foldl (fun acc c =>
      match acc with
      | none => none
      | some n => if '0' ≤ c ∧ c ≤ '9' then some (n * 10 + (c.toNat - '0'.toNat)) else none)
      (some 0)
  match s with
  | '-' :: ds =>
    match digits ds with
    | some n => .ok (-(n : Int))
    | none => .error "ValueError: invalid literal for int"
  | ds =>
    match digits ds with
    | some n => .ok (n : Int)
    | none => .error "ValueError: invalid literal for int"

/-- `vocab[word] += c` on a `Counter`, as an insertion-ordered
association list (missing keys count 0 and are appended). -/
def counterAdd (vocab : List (Sym × Int)) (w : Sym) (c : Int) : List (Sym × Int) :=
  if vocab.any (fun kv => kv.1 = w) then
    vocab.map (fun kv => if kv.1 = w then (kv.1, kv.2 + c) else kv)
  else vocab ++ [(w, c)]

/-- `vocab[word] = c` (dict-mode assignment). -/
def counterSet (vocab : List (Sym × Int)) (w : Sym) (c : Int) : List (Sym × Int) :=
  if vocab.any (fun kv => kv.1 = w) then
    vocab.map (fun kv => if kv.1 = w then (kv.1, c) else kv)
  else vocab ++ [(w, c)]

/-- The dict-mode loop of `get_vocabulary`: each line is `word count`,
and reading *stops* (`break`) at the first count below `mincount`. -/
def get_vocabulary_dict (mincount : Int) :
    List (Sym × Int) → List (List Sym) → Except String (List (Sym × Int))
  | acc, [] => .ok acc
  | acc, line :: rest =>
    match line with
    | [word, count] =>
      match pyInt count with
      | .error e => .error e
      | .ok c =>
        if c < mincount then .ok acc
        else get_vocabulary_dict mincount (counterSet acc word c) rest
    | _ => .error "ValueError: not enough values to unpack"

/-- `get_vocabulary(fobj, is_dict, mincount)` (`learn_bpe.py`, lines
76-92).  Input lines are modelled pre-tokenized by `split()` (each line a
list of whitespace-free tokens).  Non-dict mode counts every token of
every line, then, when `mincount > 1`, keeps only the entries with
frequency at least `mincount`. -/
def get_vocabulary (lines : List (List Sym)) (is_dict : Bool) (mincount : Int) :
    Except String (List (Sym × Int)) :=
  if is_dict then get_vocabulary_dict mincount [] lines
  else
    let vocab := lines.join.foldl (fun acc w => counterAdd acc w 1) []
    .ok (if 1 < mincount then vocab.filter (fun kv => mincount ≤ kv.2) else vocab)

/-- The vocabulary `main` actually learns from (`learn_bpe.py`, line
248): `vocab = get_vocabulary(infile, is_dict)` — `main` receives a
`mincount` parameter (wired to `--min-count`) but does not forward it,
so the call runs with the default `mincount=1`. -/
def main_vocab (lines : List (List Sym)) (is_dict : Bool) (mincount : Int) :
    Except String (List (Sym × Int)) :=
  get_vocabulary lines is_dict 1

/-- C7 is a code bug: invoking learning with minimum count 2 on the text
`a a b` keeps the word `b` of frequency 1 in the vocabulary handed to
merge learning, although `get_vocabulary` itself, given the same
minimum count, would drop it. -/
theorem main_vocab_ignores_mincount :
    main_vocab [[['a'], ['a'], ['b']]] false 2 = .ok [(['a'], 2), (['b'], 1)]
    ∧ get_vocabulary [[['a'], ['a'], ['b']]] false 2 = .ok [(['a'], 2)]
    ∧ ((1 : Int) < 2) := by
  exact ⟨rfl, rfl, by decide⟩

/-! ## Round-trip of the encoder: supporting lemmas -/

theorem cat_map_singleton (s : Sym) : cat (s.map (fun c => [c])) = s := by
  induction s with
  | nil => rfl
  | cons c t ih => simp [ih]

theorem cat_join (l : List Sym) : cat l = l.join := by
  induction l with
  | nil => rfl
  | cons a t ih => simp [ih]

theorem mergeAll_ne_nil (A B : Sym) : ∀ w : List Sym, w ≠ [] → mergeAll A B w ≠ []
  | [], h => absurd rfl h
  | [a], _ => by simp
  | a :: b :: t, _ => by
    rw [mergeAll_cons₂]
    by_cases hab : a = A ∧ b = B
    · rw [if_pos hab]; simp
    · rw [if_neg hab]; simp

/-- The last symbol of the input is a suffix of the last symbol of the
merged word: merges only ever concatenate a left neighbour onto it. -/
theorem mergeAll_getLast?_suffix (A B : Sym) : ∀ (w : List Sym) (s : Sym),
    w.getLast? = some s → ∃ s', (mergeAll A B w).getLast? = some s' ∧ s <:+ s'
  | [], s, h => by simp at h
  | [a], s, h => by
    refine ⟨a, by simp, ?_⟩
    simp only [List.getLast?_singleton, Option.some.injEq] at h
    exact h ▸ List.suffix_refl a
  | a :: b :: t, s, h => by
    rw [List.getLast?_cons_cons] at h
    rw [mergeAll_cons₂]
    by_cases hab : a = A ∧ b = B
    · rw [if_pos hab]
      rcases t with _ | ⟨c, t'⟩
      · simp only [List.getLast?_singleton, Option.some.injEq] at h
        refine ⟨A ++ B, by simp, ?_⟩
        rw [← h, ← hab.2]
        exact List.suffix_append A b
      · obtain ⟨s', hs', hsuf⟩ := mergeAll_getLast?_suffix A B (c :: t') s h
        refine ⟨s', ?_, hsuf⟩
        rcases hm : mergeAll A B (c :: t') with _ | ⟨d, r⟩
        · exact absurd hm (mergeAll_ne_nil A B (c :: t') (by simp))
        · rw [hm] at hs'
          rw [List.getLast?_cons_cons, hs']
    · rw [if_neg hab]
      obtain ⟨s', hs', hsuf⟩ := mergeAll_getLast?_suffix A B (b :: t) s h
      refine ⟨s', ?_, hsuf⟩
      rcases hm : mergeAll A B (b :: t) with _ | ⟨d, r⟩
      · exact absurd hm (mergeAll_ne_nil A B (b :: t) (by simp))
      · rw [hm] at hs'
        rw [List.getLast?_cons_cons, hs']

theorem cat_encode_loop_fuel (ranks : SPair → Option Nat) :
    ∀ (n : Nat) (w : List Sym), cat (encode_loop_fuel ranks n w) = cat w
  | 0, w => rfl
  | n+1, w => by
    rw [encode_loop_fuel]
    rcases bestPair ranks (pairsList w) with _ | p
    · rfl
    · simp only
      by_cases h1 : (mergeAll p.1 p.2 w).length = 1
      · rw [if_pos h1, cat_mergeAll]
      · rw [if_neg h1, cat_encode_loop_fuel ranks n (mergeAll p.1 p.2 w), cat_mergeAll]

theorem cat_encode_loop (ranks : SPair → Option Nat) (w : List Sym) :
    cat (encode_loop ranks w) = cat w :=
  cat_encode_loop_fuel ranks w.length w

theorem encode_loop_fuel_getLast?_suffix (ranks : SPair → Option Nat) :
    ∀ (n : Nat) (w : List Sym) (s : Sym), w.getLast? = some s →
    ∃ s', (encode_loop_fuel ranks n w).getLast? = some s' ∧ s <:+ s'
  | 0, w, s, h => ⟨s, h, List.suffix_refl s⟩
  | n+1, w, s, h => by
    rw [encode_loop_fuel]
    rcases bestPair ranks (pairsList w) with _ | p
    · exact ⟨s, h, List.suffix_refl s⟩
    · simp only
      obtain ⟨s', hs', hsuf⟩ := mergeAll_getLast?_suffix p.1 p.2 w s h
      by_cases h1 : (mergeAll p.1 p.2 w).length = 1
      · rw [if_pos h1]
        exact ⟨s', hs', hsuf⟩
      · rw [if_neg h1]
        obtain ⟨s'', hs'', hsuf'⟩ :=
          encode_loop_fuel_getLast?_suffix ranks n (mergeAll p.1 p.2 w) s' hs'
        exact ⟨s'', hs'', hsuf.trans hsuf'⟩

theorem encode_loop_getLast?_suffix (ranks : SPair → Option Nat) (w : List Sym) (s : Sym)
    (h : w.getLast? = some s) :
    ∃ s', (encode_loop ranks w).getLast? = some s' ∧ s <:+ s' :=
  encode_loop_fuel_getLast?_suffix ranks w.length w s h

/-- On a string with no occurrence of the marker, appending the marker and
running the left-to-right replacement removes exactly the appended copy:
`'</w>'` has no self-overlap, so no occurrence straddles the boundary. -/
theorem removeEndword_append : ∀ u : Sym, ¬ endword <:+: u →
    removeEndword (u ++ endword) = u
  | [], _ => rfl
  | c :: u', h => by
    have hu' : ¬ endword <:+: u' := fun hx => h (List.infix_cons hx)
    rw [removeEndword.eq_def]
    split
    · rename_i t heq
      rcases u' with _ | ⟨d1, u1⟩
      · injection heq with h1 heq; injection heq with h2 heq
        exact absurd h2 (by decide)
      · rcases u1 with _ | ⟨d2, u2⟩
        · injection heq with h1 heq; injection heq with h2 heq; injection heq with h3 heq
          exact absurd h3 (by decide)
        · rcases u2 with _ | ⟨d3, u3⟩
          · injection heq with h1 heq; injection heq with h2 heq
            injection heq with h3 heq; injection heq with h4 heq
            exact absurd h4 (by decide)
          · injection heq with h1 heq; injection heq with h2 heq
            injection heq with h3 heq; injection heq with h4 heq
            exfalso
            apply h
            exact ⟨[], u3, by simp [endword, h1, h2, h3, h4]⟩
    · rename_i c₁ t₁ _ heq
      injection heq with h1 h2
      subst h1
      rw [← h2, List.append_eq, removeEndword_append u' hu']
    · rename_i heq
      simp at heq

theorem suffix_of_suffix_length_le {l₁ l₂ l₃ : Sym} (h1 : l₁ <:+ l₃) (h2 : l₂ <:+ l₃)
    (h : l₁.length ≤ l₂.length) : l₁ <:+ l₂ := by
  rw [← List.reverse_prefix] at h1 h2 ⊢
  exact List.prefix_of_prefix_length_le h1 h2 (by simpa using h)

/-- Splitting off the end-of-word marker from the right half of a
final-mode reverse-map hit. -/
theorem take_append_endword {s : Sym} (p : SPair) (hc : p.1 ++ p.2 = s ++ endword)
    (h4 : 4 ≤ p.2.length) :
    p.2.take (p.2.length - 4) ++ endword = p.2
    ∧ p.1 ++ p.2.take (p.2.length - 4) = s := by
  have hsuf2 : p.2 <:+ s ++ endword := ⟨p.1, hc⟩
  have hsufe : endword <:+ s ++ endword := List.suffix_append s endword
  have hs : endword <:+ p.2 :=
    suffix_of_suffix_length_le hsufe hsuf2 (by simpa [endword] using h4)
  obtain ⟨u, hu⟩ := hs
  have hlu : u.length = p.2.length - 4 := by
    have := congrArg List.length hu
    simp [endword] at this
    omega
  have htake : p.2.take (p.2.length - 4) = u := by
    rw [← hu]
    have he : (u ++ endword).length - 4 = u.length := by
      simp [endword]
    rw [he]
    exact List.take_left ..
  constructor
  · rw [htake, hu]
  · rw [htake]
    apply List.append_cancel_right
    show (p.1 ++ u) ++ endword = s ++ endword
    rw [List.append_assoc, hu, hc]

/-- Any successful vocabulary-restricted split concatenates back to the
segment, for reverse maps whose entries concatenate to their key and
whose final-mode (marker-suffixed) entries have a right half at least as
long as the marker. -/
theorem recursive_split_cat (reverse : Sym → Option SPair)
    (hrc : ∀ s p, reverse s = some p → p.1 ++ p.2 = s)
    (hfin : ∀ s p, reverse (s ++ endword) = some p → 4 ≤ p.2.length)
    (vocab : List Sym) (separator : Sym) :
    ∀ (fuel : Nat) (segment : Sym) (final : Bool) (out : List Sym),
      recursive_split reverse vocab separator fuel segment final = some out →
      out.join = segment := by
  intro fuel
  induction fuel with
  | zero =>
    intro segment final out h
    exact Option.noConfusion h
  | succ n ih =>
    intro segment final out h
    rw [recursive_split] at h
    rcases final with _ | _
    · simp only [Bool.false_eq_true, if_false, false_and, not_false_eq_true, true_and,
        false_or] at h
      rcases hrev : reverse segment with _ | lr
      · simp only [hrev] at h
        injection h with h
        rw [← h]
        simp
      · simp only [hrev] at h
        rcases hL : (if lr.1 ++ separator ∈ vocab then some [lr.1]
            else recursive_split reverse vocab separator n lr.1 false) with _ | ls
        · simp only [hL] at h
          exact Option.noConfusion h
        · rcases hR : (if lr.2 ++ separator ∈ vocab then some [lr.2]
              else recursive_split reverse vocab separator n lr.2 false) with _ | rs
          · simp only [hL, hR] at h
            exact Option.noConfusion h
          · simp only [hL, hR, Option.some.injEq] at h
            have hls : ls.join = lr.1 := by
              by_cases hv : lr.1 ++ separator ∈ vocab
              · rw [if_pos hv] at hL
                injection hL with hL
                rw [← hL]
                simp
              · rw [if_neg hv] at hL
                exact ih lr.1 false ls hL
            have hrs : rs.join = lr.2 := by
              by_cases hv : lr.2 ++ separator ∈ vocab
              · rw [if_pos hv] at hR
                injection hR with hR
                rw [← hR]
                simp
              · rw [if_neg hv] at hR
                exact ih lr.2 false rs hR
            rw [← h, ← cat_join, cat_append, cat_join, cat_join, hls, hrs]
            exact hrc segment lr hrev
    · simp only [if_true, true_and, not_true, false_and, or_false] at h
      rcases hrev : reverse (segment ++ endword) with _ | p
      · simp only [hrev, Option.map_none'] at h
        injection h with h
        rw [← h]
        simp
      · simp only [hrev, Option.map_some'] at h
        obtain ⟨hsplit, hleft⟩ := take_append_endword p (hrc _ p hrev) (hfin segment p hrev)
        rcases hL : (if p.1 ++ separator ∈ vocab then some [p.1]
            else recursive_split reverse vocab separator n p.1 false) with _ | ls
        · simp only [hL] at h
          exact Option.noConfusion h
        · rcases hR : (if p.2.take (p.2.length - 4) ∈ vocab
              then some [p.2.take (p.2.length - 4)]
              else recursive_split reverse vocab separator n (p.2.take (p.2.length - 4)) true)
              with _ | rs
          · simp only [hL, hR] at h
            exact Option.noConfusion h
          · simp only [hL, hR, Option.some.injEq] at h
            have hls : ls.join = p.1 := by
              by_cases hv : p.1 ++ separator ∈ vocab
              · rw [if_pos hv] at hL
                injection hL with hL
                rw [← hL]
                simp
              · rw [if_neg hv] at hL
                exact ih p.1 false ls hL
            have hrs : rs.join = p.2.take (p.2.length - 4) := by
              by_cases hv : p.2.take (p.2.length - 4) ∈ vocab
              · rw [if_pos hv] at hR
                injection hR with hR
                rw [← hR]
                simp
              · rw [if_neg hv] at hR
                exact ih (p.2.take (p.2.length - 4)) true rs hR
            rw [← h, ← cat_join, cat_append, cat_join, cat_join, hls, hrs]
            exact hleft

/-- Dropping the end-of-word marker recovers the spelled word, provided
the marker text does not occur in the original word. -/
theorem cat_stripEnd (w : List Sym) (orig L : Sym)
    (hcat : cat w = orig ++ endword) (hlast : w.getLast? = some L)
    (hsuf : endword <:+ L) (hw : ¬ endword <:+: orig) :
    cat (stripEnd w) = orig := by
  have hsplit : w.dropLast ++ [L] = w := List.dropLast_append_getLast? L hlast
  have hcat2 : cat w.dropLast ++ L = orig ++ endword := by
    rw [← hcat, ← hsplit, cat_append]
    simp
  obtain ⟨u, hu⟩ := hsuf
  have horig : cat w.dropLast ++ u = orig := by
    apply List.append_cancel_right
    show (cat w.dropLast ++ u) ++ endword = orig ++ endword
    rw [List.append_assoc, hu, hcat2]
  have hstrip : stripEnd w = if L = endword then w.dropLast
      else if endword.isSuffixOf L then w.dropLast ++ [removeEndword L] else w := by
    rw [stripEnd, hlast]
  rw [hstrip]
  by_cases hLe : L = endword
  · rw [if_pos hLe]
    have hu0 : u = [] := by
      have hlen := congrArg List.length hu
      rw [hLe] at hlen
      simp [endword] at hlen
      exact hlen
    rw [hu0] at horig
    simpa using horig
  · rw [if_neg hLe, if_pos (List.isSuffixOf_iff_suffix.mpr ⟨u, hu⟩)]
    have hnu : ¬ endword <:+: u := by
      intro hx
      exact hw (hx.trans (List.IsSuffix.isInfix ⟨cat w.dropLast, horig⟩))
    rw [cat_append, ← hu, removeEndword_append u hnu]
    simpa using horig

theorem join_cons_sym (a : List Sym) (t : List (List Sym)) : (a :: t).join = a ++ t.join := rfl

/-- The `dropLast` loop of `check_vocab_and_split` concatenates back to
its input segments. -/
theorem mapM_split_cat (reverse : Sym → Option SPair)
    (hrc : ∀ s p, reverse s = some p → p.1 ++ p.2 = s)
    (hfin : ∀ s p, reverse (s ++ endword) = some p → 4 ≤ p.2.length)
    (vocab : List Sym) (separator : Sym) (fuel : Nat) :
    ∀ (l : List Sym) (parts : List (List Sym)),
      l.mapM (fun segment =>
          if segment ++ separator ∈ vocab then some [segment]
          else recursive_split reverse vocab separator fuel segment false) = some parts →
      cat parts.join = cat l
  | [], parts, h => by
    simp only [List.mapM_nil, Option.pure_def, Option.some.injEq] at h
    rw [← h]
    rfl
  | s :: t, parts, h => by
    rw [List.mapM_cons] at h
    rcases hs : (if s ++ separator ∈ vocab then some [s]
        else recursive_split reverse vocab separator fuel s false) with _ | p₀
    · rw [hs] at h
      simp at h
    · rw [hs] at h
      rcases ht : t.mapM (fun segment =>
          if segment ++ separator ∈ vocab then some [segment]
          else recursive_split reverse vocab separator fuel segment false) with _ | ps
      · rw [ht] at h
        simp at h
      · rw [ht] at h
        simp at h
        have hp₀ : cat p₀ = s := by
          by_cases hv : s ++ separator ∈ vocab
          · rw [if_pos hv] at hs
            injection hs with hs
            rw [← hs]
            simp
          · rw [if_neg hv] at hs
            rw [cat_join]
            exact recursive_split_cat reverse hrc hfin vocab separator fuel s false p₀ hs
        have iht := mapM_split_cat reverse hrc hfin vocab separator fuel t ps ht
        rw [← h, join_cons_sym, cat_append, hp₀, cat_cons, iht]

/-- A successful vocabulary-restricted re-splitting of the whole word
concatenates back to the word. -/
theorem check_vocab_and_split_cat (reverse : Sym → Option SPair)
    (hrc : ∀ s p, reverse s = some p → p.1 ++ p.2 = s)
    (hfin : ∀ s p, reverse (s ++ endword) = some p → 4 ≤ p.2.length)
    (vocab : List Sym) (separator : Sym) (fuel : Nat) (orig out : List Sym)
    (h : check_vocab_and_split reverse vocab separator fuel orig = some out) :
    cat out = cat orig := by
  rw [check_vocab_and_split] at h
  rcases hlast : orig.getLast? with _ | lastSeg
  · simp only [hlast] at h
    injection h with h
    have horig : orig = [] := List.getLast?_eq_none_iff.mp hlast
    rw [← h, horig]
  · simp only [hlast] at h
    rcases hparts : orig.dropLast.mapM (fun segment =>
        if segment ++ separator ∈ vocab then some [segment]
        else recursive_split reverse vocab separator fuel segment false) with _ | parts
    · simp only [hparts] at h
      exact Option.noConfusion h
    · simp only [hparts] at h
      rcases hfinal : (if lastSeg ∈ vocab then some [lastSeg]
          else recursive_split reverse vocab separator fuel lastSeg true) with _ | finalPart
      · simp only [hfinal] at h
        exact Option.noConfusion h
      · simp only [hfinal] at h
        injection h with h
        have hparts_cat := mapM_split_cat reverse hrc hfin vocab separator fuel
          orig.dropLast parts hparts
        have hfinal_cat : cat finalPart = lastSeg := by
          by_cases hv : lastSeg ∈ vocab
          · rw [if_pos hv] at hfinal
            injection hfinal with hfinal
            rw [← hfinal]
            simp
          · rw [if_neg hv] at hfinal
            rw [cat_join]
            exact recursive_split_cat reverse hrc hfin vocab separator fuel lastSeg true
              finalPart hfinal
        rw [← h, cat_append, hparts_cat, hfinal_cat]
        have hsplit : orig.dropLast ++ [lastSeg] = orig :=
          List.dropLast_append_getLast? lastSeg hlast
        rw [← hsplit, cat_append]
        simp

/-- What an `encode` result spells: a raw string spells itself, a tuple
spells the concatenation of its symbols. -/
def pyResCat : PyRes → Sym
  | .str s => s
  | .tup l => cat l

/-- Concatenating the symbols of any successful `encode` result recovers
the input word, for supported versions and input words not containing the
marker text `</w>`.  The reverse map is consulted only when a non-empty
target vocabulary is configured, so only then must its entries concatenate
to their key and its final-mode entries be at least as long as the
marker. -/
theorem encode_cat (version : Nat × Nat) (hver : version = (0, 1) ∨ version = (0, 2))
    (ranks : SPair → Option Nat) (reverse : Sym → Option SPair)
    (vocab : Option (List Sym))
    (hvoc : ∀ v, vocab = some v → v ≠ [] →
      (∀ s p, reverse s = some p → p.1 ++ p.2 = s)
      ∧ (∀ s p, reverse (s ++ endword) = some p → 4 ≤ p.2.length))
    (separator unkchar unktag : Sym) (fuel : Nat)
    (orig : Sym) (res : PyRes) (hw : ¬ endword <:+: orig)
    (h : encode version ranks reverse vocab separator unkchar unktag fuel orig = .ok res) :
    pyResCat res = orig := by
  rw [encode] at h
  rcases hiw : initWord version orig with e | word₀
  · simp only [hiw] at h
    exact Except.noConfusion h
  · simp only [hiw] at h
    have hword₀ : cat word₀ = orig ++ endword
        ∧ ∃ L, word₀.getLast? = some L ∧ endword <:+ L := by
      rcases hver with rfl | rfl
      · rw [initWord, if_pos rfl] at hiw
        injection hiw with hiw
        rw [← hiw]
        refine ⟨?_, endword, List.getLast?_concat .., List.suffix_refl _⟩
        rw [cat_append, cat_map_singleton]
        simp
      · rw [initWord, if_neg (by decide), if_pos rfl] at hiw
        rcases horig : orig.getLast? with _ | c
        · rw [horig] at hiw
          exact Except.noConfusion hiw
        · rw [horig] at hiw
          injection hiw with hiw
          rw [← hiw]
          refine ⟨?_, c :: endword, List.getLast?_concat .., [c], rfl⟩
          rw [cat_append, cat_map_singleton]
          have hsplit : orig.dropLast ++ [c] = orig :=
            List.dropLast_append_getLast? c horig
          rw [← hsplit]
          simp
    obtain ⟨hcat₀, L, hL, hLsuf⟩ := hword₀
    by_cases hpairs : pairsList word₀ = []
    · rw [if_pos hpairs] at h
      injection h with h
      rw [← h]
      rfl
    · rw [if_neg hpairs] at h
      simp only [pyTupleEqStr, Bool.false_eq_true, and_false, if_false] at h
      obtain ⟨L', hL', hsuf'⟩ := encode_loop_getLast?_suffix ranks word₀ L hL
      have hcat₂ : cat (stripEnd (encode_loop ranks word₀)) = orig :=
        cat_stripEnd (encode_loop ranks word₀) orig L'
          (by rw [cat_encode_loop]; exact hcat₀) hL' (hLsuf.trans hsuf') hw
      rcases vocab with _ | v
      · have h' : Except.ok (ε := String)
            (PyRes.tup (stripEnd (encode_loop ranks word₀))) = Except.ok res := h
        injection h' with h'
        rw [← h']
        exact hcat₂
      · have h' : (if v ≠ [] then
              match check_vocab_and_split reverse v separator fuel
                  (stripEnd (encode_loop ranks word₀)) with
              | some out => Except.ok (PyRes.tup out)
              | none => Except.error "RecursionError: maximum recursion depth exceeded"
            else Except.ok (ε := String)
              (PyRes.tup (stripEnd (encode_loop ranks word₀)))) = Except.ok res := h
        by_cases hv : v ≠ []
        · rw [if_pos hv] at h'
          obtain ⟨hrc, hfin⟩ := hvoc v rfl hv
          rcases hcvs : check_vocab_and_split reverse v separator fuel
              (stripEnd (encode_loop ranks word₀)) with _ | out'
          · simp only [hcvs] at h'
            exact Except.noConfusion h'
          · simp only [hcvs] at h'
            injection h' with h'
            rw [← h']
            exact (check_vocab_and_split_cat reverse hrc hfin v separator fuel _ out'
              hcvs).trans hcat₂
        · rw [if_neg hv] at h'
          injection h' with h'
          rw [← h']
          exact hcat₂

theorem reSplitF_nil (gs : List Sym) (n : Nat) (pending : Sym) :
    reSplitF gs n pending [] = [pending] := by
  cases n <;> rfl

theorem reSplitF_zero_cons (gs : List Sym) (pending : Sym) (c : Char) (t : Sym) :
    reSplitF gs 0 pending (c :: t) = [pending ++ (c :: t)] := rfl

theorem reSplitF_succ_cons (gs : List Sym) (n : Nat) (pending : Sym) (c : Char) (t : Sym) :
    reSplitF gs (n+1) pending (c :: t) =
      match glossaryAt gs (c :: t) with
      | some g => pending :: g :: reSplitF gs n [] ((c :: t).drop g.length)
      | none => reSplitF gs n (pending ++ [c]) t := rfl

theorem glossaryAt_prefix (gs : List Sym) (s g : Sym) (h : glossaryAt gs s = some g) :
    g <+: s := by
  have hp := List.find?_some h
  simp only [decide_eq_true_eq] at hp
  exact List.isPrefixOf_iff_prefix.mp hp.2

theorem reSplitF_join (gs : List Sym) : ∀ (n : Nat) (pending rest : Sym),
    cat (reSplitF gs n pending rest) = pending ++ rest
  | 0, pending, rest => by
    cases rest with
    | nil => rw [reSplitF_nil]; simp
    | cons c t => rw [reSplitF_zero_cons]; simp
  | n+1, pending, rest => by
    cases rest with
    | nil => rw [reSplitF_nil]; simp
    | cons c t =>
      rw [reSplitF_succ_cons]
      rcases hg : glossaryAt gs (c :: t) with _ | g
      · simp only
        rw [reSplitF_join gs n (pending ++ [c]) t]
        simp
      · simp only
        obtain ⟨r, hr⟩ := glossaryAt_prefix gs (c :: t) g hg
        have hdrop : (c :: t).drop g.length = r := by
          rw [← hr]
          exact List.drop_left ..
        rw [cat_cons, cat_cons, reSplitF_join gs n [] ((c :: t).drop g.length), hdrop]
        rw [← hr]
        simp

theorem isolate_glossaries_join (gs : List Sym) (w : Sym) :
    cat (isolate_glossaries gs w) = w := by
  rw [isolate_glossaries, reSplitF_join]
  rfl

theorem mem_isolate_in_word (gs : List Sym) (w s : Sym) (h : s ∈ isolate_glossaries gs w) :
    s <:+: w := by
  have h1 : s <:+: cat (isolate_glossaries gs w) := by
    rw [cat_join]
    exact List.infix_of_mem_join h
  rwa [isolate_glossaries_join] at h1

/-- The segment loop of `pieces` concatenates back to its segments when
every segment is round-tripped by `encode` (isolated segments pass
through verbatim). -/
theorem piecesSegs_cat (version : Nat × Nat) (hver : version = (0, 1) ∨ version = (0, 2))
    (ranks : SPair → Option Nat) (reverse : Sym → Option SPair)
    (vocab : Option (List Sym))
    (hvoc : ∀ v, vocab = some v → v ≠ [] →
      (∀ s p, reverse s = some p → p.1 ++ p.2 = s)
      ∧ (∀ s p, reverse (s ++ endword) = some p → 4 ≤ p.2.length))
    (separator unkchar unktag : Sym) (fuel : Nat) :
    ∀ (segs : List Sym) (iso : Bool) (out : List Sym),
      (∀ s ∈ segs, ¬ endword <:+: s) →
      piecesSegs version ranks reverse vocab separator unkchar unktag fuel iso segs = .ok out →
      cat out = cat segs := by
  intro segs
  induction segs with
  | nil =>
    intro iso out _ h
    injection h with h
    rw [← h]
  | cons seg rest ih =>
    intro iso out hseg h
    rw [piecesSegs] at h
    by_cases h0 : seg.length = 0
    · rw [if_pos h0] at h
      have hseg0 : seg = [] := List.length_eq_zero.mp h0
      have htail := ih (!iso) out (fun s hs => hseg s (by simp [hs])) h
      rw [htail, cat_cons, hseg0]
      rfl
    · rw [if_neg h0] at h
      rcases iso with _ | _
      · simp only [Bool.false_eq_true, if_false] at h
        rcases henc : encode version ranks reverse vocab separator unkchar unktag fuel seg
            with e | res
        · simp only [henc] at h
          exact Except.noConfusion h
        · simp only [henc] at h
          rcases hrest : piecesSegs version ranks reverse vocab separator unkchar unktag fuel
              (!false) rest with e | tail
          · simp only [hrest] at h
            exact Except.noConfusion h
          · simp only [hrest] at h
            injection h with h
            have htail := ih (!false) tail (fun s hs => hseg s (by simp [hs])) hrest
            have hseg_cat : pyResCat res = seg :=
              encode_cat version hver ranks reverse vocab hvoc separator unkchar unktag
                fuel seg res (hseg seg (by simp)) henc
            rw [← h, cat_append, htail, cat_cons]
            congr 1
            rcases res with s | l
            · rw [← hseg_cat]
              exact cat_map_singleton s
            · rw [← hseg_cat]
              rfl
      · simp only [if_true] at h
        rcases hrest : piecesSegs version ranks reverse vocab separator unkchar unktag fuel
            (!true) rest with e | tail
        · simp only [hrest] at h
          exact Except.noConfusion h
        · simp only [hrest] at h
          injection h with h
          have htail := ih (!true) tail (fun s hs => hseg s (by simp [hs])) hrest
          rw [← h, cat_cons, htail, cat_cons]

/-- Stripping the trailing continuation separator from every non-final
token (the claim's reading of the output format). -/
def stripSeps (separator : Sym) : List Sym → List Sym
  | [] => []
  | [x] => [x]
  | x :: t => x.take (x.length - separator.length) :: stripSeps separator t

theorem stripSeps_attachSeps (separator : Sym) :
    ∀ l : List Sym, stripSeps separator (attachSeps separator l) = l
  | [] => rfl
  | [x] => rfl
  | x :: y :: t => by
    have h2 : attachSeps separator (x :: y :: t)
        = (x ++ separator) :: attachSeps separator (y :: t) := rfl
    rw [h2]
    obtain ⟨b, t', hbt⟩ : ∃ b t', attachSeps separator (y :: t) = b :: t' := by
      cases t
      · exact ⟨y, [], rfl⟩
      · exact ⟨y ++ separator, _, rfl⟩
    rw [hbt]
    have h3 : stripSeps separator ((x ++ separator) :: b :: t')
        = (x ++ separator).take ((x ++ separator).length - separator.length)
          :: stripSeps separator (b :: t') := rfl
    rw [h3, ← hbt, stripSeps_attachSeps separator (y :: t)]
    congr 1
    have he : (x ++ separator).length - separator.length = x.length := by simp
    rw [he]
    exact List.take_left ..

/-- Round trip for an arbitrary reverse map: the table conditions are
demanded only when a non-empty target vocabulary is configured, since
that is the only path on which `recursive_split` consults the map. -/
theorem pieces_cat_of_reverse (version : Nat × Nat)
    (hver : version = (0, 1) ∨ version = (0, 2))
    (ranks : SPair → Option Nat) (reverse : Sym → Option SPair)
    (vocab : Option (List Sym))
    (hvoc : ∀ v, vocab = some v → v ≠ [] →
      (∀ s p, reverse s = some p → p.1 ++ p.2 = s)
      ∧ (∀ s p, reverse (s ++ endword) = some p → 4 ≤ p.2.length))
    (separator : Sym) (gs : List Sym) (unkchar unktag : Sym)
    (fuel : Nat) (word : Sym) (out : List Sym)
    (hw : ¬ endword <:+: word)
    (h : pieces version ranks reverse vocab separator gs unkchar unktag fuel word = .ok out) :
    cat (stripSeps separator out) = word := by
  rw [pieces] at h
  rcases hsegs : piecesSegs version ranks reverse vocab separator unkchar unktag fuel false
      (isolate_glossaries gs word) with e | new_word
  · simp only [hsegs] at h
    exact Except.noConfusion h
  · simp only [hsegs] at h
    injection h with h
    rw [← h, stripSeps_attachSeps]
    have hsegcat := piecesSegs_cat version hver ranks reverse vocab hvoc separator
      unkchar unktag fuel (isolate_glossaries gs word) false new_word
      (fun s hs hx => hw (hx.trans (mem_isolate_in_word gs word s hs))) hsegs
    rw [hsegcat, isolate_glossaries_join]

/-- C2 (amended): for every supported merge-table version, every loaded
merge table, and every raw word not containing the marker text `</w>`,
concatenating the subword tokens `pieces` produces — after stripping the
trailing continuation separator from every non-final token — reproduces
the word exactly, with or without glossaries, and with or without a
target vocabulary, provided that, when a non-empty vocabulary is
configured, every marker-suffixed reverse-map entry of the table has a
right half of at least four characters.  (Every loaded table's reverse
entries concatenate to their key, by `bpe_codes_reverse_spec`, so that is
not an extra condition.)  The two provisos are each forced by a failure
mode of the unconditional claim exhibited in the counterexample below. -/
theorem pieces_roundtrip (version : Nat × Nat) (hver : version = (0, 1) ∨ version = (0, 2))
    (lines : List SPair) (vocab : Option (List Sym))
    (hfin : ∀ v, vocab = some v → v ≠ [] →
      ∀ s p, bpe_codes_reverse lines (s ++ endword) = some p → 4 ≤ p.2.length)
    (separator : Sym) (gs : List Sym) (unkchar unktag : Sym)
    (fuel : Nat) (word : Sym) (out : List Sym)
    (hw : ¬ endword <:+: word)
    (h : pieces version (bpe_codes lines) (bpe_codes_reverse lines) vocab separator gs
        unkchar unktag fuel word = .ok out) :
    cat (stripSeps separator out) = word :=
  pieces_cat_of_reverse version hver (bpe_codes lines) (bpe_codes_reverse lines) vocab
    (fun v hv hne =>
      ⟨fun s p h' => (bpe_codes_reverse_spec lines s p h').2, hfin v hv hne⟩)
    separator gs unkchar unktag fuel word out hw h

/-- The merge table that breaks the marker-free-word proviso: four lines
fusing the input word `</w>x` (whose text spells the marker) into the
single symbol `</w>x</w>`. -/
def markedLines : List SPair :=
  [(['<'], ['/']), (['<', '/'], ['w']), (['<', '/', 'w'], ['>']),
   (['<', '/', 'w', '>'], ['x', '<', '/', 'w', '>'])]

/-- The merge table that breaks the short-right-half proviso: the one
line `s< /w>`, whose fused symbol is the marker-suffixed key `s</w>` with
a right half of only three characters. -/
def shortLines : List SPair := [(['s', '<'], ['/', 'w', '>'])]

/-- C2 as stated is false, by two independent mechanisms.  First, with no
vocabulary: encoding the word `</w>x` (version 0.2) under `markedLines`
merges the whole word with its end marker into one symbol, and the final
`word[-1].replace('</w>','')` deletes the occurrence of `</w>` that the
word itself spells along with the appended marker — the tokens
concatenate to `x`, not `</w>x`.  Second, with a vocabulary: under
`shortLines` the marker-free word `s` looks up `s</w>`, splits into
`('s<', '/w>'[:-4])` = `('s<', '')`, and the tokens concatenate to `s<`,
not `s`. -/
theorem pieces_roundtrip_counterexample :
    (pieces (0, 2) (bpe_codes markedLines) (bpe_codes_reverse markedLines) none ['@', '@'] []
        [Char.ofNat 64986] ['<', 'u', 'n', 'k', '>'] 0 ['<', '/', 'w', '>', 'x']
      = .ok [['x']]
    ∧ cat (stripSeps ['@', '@'] [['x']]) ≠ ['<', '/', 'w', '>', 'x'])
    ∧ (¬ endword <:+: (['s'] : Sym)
    ∧ bpe_codes_reverse shortLines (['s'] ++ endword) = some (['s', '<'], ['/', 'w', '>'])
    ∧ pieces (0, 1) (bpe_codes shortLines) (bpe_codes_reverse shortLines) (some [['z']])
        ['@', '@'] [] [Char.ofNat 64986] ['<', 'u', 'n', 'k', '>'] 2 ['s']
      = .ok [['s', '<', '@', '@'], []]
    ∧ cat (stripSeps ['@', '@'] [['s', '<', '@', '@'], []]) ≠ ['s']) :=
  ⟨⟨rfl, by decide⟩, ⟨by decide, by decide, rfl, by decide⟩⟩

theorem pieces_roundtrip_witness :
    ¬ endword <:+: (['a', 'b'] : Sym)
    ∧ cat (stripSeps ['@', '@'] [['a', '@', '@'], ['b']]) = ['a', 'b'] :=
  ⟨by decide,
   pieces_roundtrip (0, 1) (.inl rfl) [] (some [['z']])
     (fun v hv hne s p h' => Option.noConfusion h')
     ['@', '@'] [] [Char.ofNat 64986] ['<', 'u', 'n', 'k', '>'] 1 ['a', 'b']
     [['a', '@', '@'], ['b']] (by decide) rfl⟩

/-! ## Determinism of the learning loop (`learn_bpe.py`, lines 284-306)

`most_frequent = max(stats, key=lambda x: (stats[x], x))`: Python's `max`
returns the first key attaining the maximal `(frequency, pair)` key in
dict iteration order; since the key function is injective (it contains the
dict key itself), the maximiser is unique and the selection does not
depend on the iteration order.  We model the selection as a relation
(`IsPyMax`) and prove the whole loop functional. -/

/-- Python string `<` (lexicographic by code point, a proper prefix is
smaller). -/
def pyStrLtB : Sym → Sym → Bool
  | [], [] => false
  | [], _ :: _ => true
  | _ :: _, [] => false
  | a :: as, b :: bs => if a < b then true else if b < a then false else pyStrLtB as bs

theorem pyStrLtB_nil_nil : pyStrLtB [] [] = false := rfl

theorem pyStrLtB_cons (a b : Char) (as bs : Sym) :
    pyStrLtB (a :: as) (b :: bs)
      = if a < b then true else if b < a then false else pyStrLtB as bs := rfl

theorem pyStrLtB_irrefl : ∀ x : Sym, pyStrLtB x x = false
  | [] => rfl
  | a :: as => by
    rw [pyStrLtB_cons, if_neg (lt_irrefl a), if_neg (lt_irrefl a)]
    exact pyStrLtB_irrefl as

theorem pyStrLtB_asymm : ∀ x y : Sym, pyStrLtB x y = true → pyStrLtB y x = true → False
  | [], [], h1, _ => by simp [pyStrLtB_nil_nil] at h1
  | [], b :: bs, _, h2 => by simp [pyStrLtB] at h2
  | a :: as, [], h1, _ => by simp [pyStrLtB] at h1
  | a :: as, b :: bs, h1, h2 => by
    rw [pyStrLtB_cons] at h1 h2
    by_cases hab : a < b
    · rw [if_neg (lt_asymm hab), if_pos hab] at h2
      exact Bool.false_ne_true h2
    · rw [if_neg hab] at h1
      by_cases hba : b < a
      · rw [if_pos hba] at h1
        exact Bool.false_ne_true h1
      · rw [if_neg hba] at h1
        rw [if_neg hba, if_neg hab] at h2
        exact pyStrLtB_asymm as bs h1 h2

theorem pyStrLtB_total : ∀ x y : Sym, pyStrLtB x y = false → pyStrLtB y x = false → x = y
  | [], [], _, _ => rfl
  | [], b :: bs, h1, _ => by simp [pyStrLtB] at h1
  | a :: as, [], _, h2 => by simp [pyStrLtB] at h2
  | a :: as, b :: bs, h1, h2 => by
    rw [pyStrLtB_cons] at h1 h2
    by_cases hab : a < b
    · rw [if_pos hab] at h1
      exact absurd h1 (by simp)
    · by_cases hba : b < a
      · rw [if_neg hab, if_pos hba] at h2
        exact absurd h2 (by simp)
      · rw [if_neg hab, if_neg hba] at h1
        rw [if_neg hba, if_neg hab] at h2
        have hchar : a = b := le_antisymm (le_of_not_lt hba) (le_of_not_lt hab)
        rw [hchar, pyStrLtB_total as bs h1 h2]

/-- Python tuple `<` on symbol pairs. -/
def pyPairLtB (q m : SPair) : Bool :=
  pyStrLtB q.1 m.1 || (decide (q.1 = m.1) && pyStrLtB q.2 m.2)

theorem pyPairLtB_asymm (q m : SPair) (h1 : pyPairLtB q m = true)
    (h2 : pyPairLtB m q = true) : False := by
  rw [pyPairLtB] at h1 h2
  simp only [Bool.or_eq_true, Bool.and_eq_true, decide_eq_true_eq] at h1 h2
  rcases h1 with h1 | ⟨he1, h1⟩ <;> rcases h2 with h2 | ⟨he2, h2⟩
  · exact pyStrLtB_asymm _ _ h1 h2
  · rw [he2] at h1
    rw [pyStrLtB_irrefl] at h1
    exact Bool.false_ne_true h1
  · rw [he1] at h2
    rw [pyStrLtB_irrefl] at h2
    exact Bool.false_ne_true h2
  · exact pyStrLtB_asymm _ _ h1 h2

/-- `(stats[q], q) ≤ (stats[m], m)` in Python's lexicographic tuple
order: the comparison key of the selection `max`. -/
def pyKeyLe (stats : SPair → Int) (q m : SPair) : Prop :=
  stats q < stats m ∨ (stats q = stats m ∧ (pyPairLtB q m = true ∨ q = m))

/-- `m` is what `max(stats, key=lambda x: (stats[x], x))` returns: a key
whose comparison key dominates every key of the dict. -/
def IsPyMax (keys : Finset SPair) (stats : SPair → Int) (m : SPair) : Prop :=
  m ∈ keys ∧ ∀ q ∈ keys, pyKeyLe stats q m

/-- The comparison key is injective, so the maximiser is unique: the
selection is independent of dict iteration order. -/
theorem IsPyMax_unique {keys : Finset SPair} {stats : SPair → Int} {m₁ m₂ : SPair}
    (h₁ : IsPyMax keys stats m₁) (h₂ : IsPyMax keys stats m₂) : m₁ = m₂ := by
  have hl₁ := h₁.2 m₂ h₂.1
  have hl₂ := h₂.2 m₁ h₁.1
  rcases hl₁ with hlt | ⟨heq, hp⟩ <;> rcases hl₂ with hlt' | ⟨heq', hp'⟩
  · omega
  · omega
  · omega
  · rcases hp with hp | he
    · rcases hp' with hp' | he'
      · exact absurd hp (fun hx => pyPairLtB_asymm _ _ hx hp')
      · exact he'
    · exact he.symm

/-- The mutable state of the selection loop of `main`: the pruned
statistics dict (key set and contents), the full statistics `big_stats`,
the float threshold (kept abstract), the word list and the index table.
Dicts are a key `Finset` plus a total `defaultdict(int)` content
function, which the loop's operations keep order-independent. -/
structure LState (T : Type) where
  keys : Finset SPair
  stats : SPair → Int
  bigKeys : Finset SPair
  big : SPair → Int
  thr : T
  vocab : List (List Sym × Int)
  idx : SPair → Nat → Int

/-- Keys surviving `prune_stats(stats, big_stats, threshold)`. -/
def pruneKeys {T : Type} (ltT : Int → T → Bool) (keys : Finset SPair)
    (stats : SPair → Int) (thr : T) : Finset SPair :=
  keys.filter (fun q => ltT (stats q) thr = false)

/-- Effect of `prune_stats` on `big_stats`: each pruned entry is folded
back (negative deltas add, others overwrite). -/
def pruneBig {T : Type} (ltT : Int → T → Bool) (keys : Finset SPair)
    (stats big : SPair → Int) (thr : T) : SPair → Int :=
  fun q => if q ∈ keys ∧ ltT (stats q) thr = true then
      (if stats q < 0 then big q + stats q else stats q) else big q

def pruneBigKeys {T : Type} (ltT : Int → T → Bool) (keys bigKeys : Finset SPair)
    (stats : SPair → Int) (thr : T) : Finset SPair :=
  bigKeys ∪ keys.filter (fun q => ltT (stats q) thr = true)

def pruneState {T : Type} (ltT : Int → T → Bool) (st : LState T) : LState T :=
  { st with keys := pruneKeys ltT st.keys st.stats st.thr,
            bigKeys := pruneBigKeys ltT st.keys st.bigKeys st.stats st.thr,
            big := pruneBig ltT st.keys st.stats st.big st.thr }

/-- The stats keys touched by the two scan loops of
`update_pair_statistics` (the dict grows by exactly these keys). -/
def eventKeys (A B : Sym) (changes : List Change) : Finset SPair :=
  changes.foldr (fun c acc =>
    acc ∪ (decEvents A B none c.old_word).toFinset ∪ (incEvents A B none c.word).toFinset) ∅

/-- `do_pair` (`learn_bpe.py`, lines 218-221): rewrite the vocabulary,
update the statistics incrementally, and zero the merged pair. -/
def doPair {T : Type} (m : SPair) (st : LState T) : LState T :=
  { st with
    vocab := replace_pair_vocab m.1 m.2 st.vocab st.idx,
    keys := st.keys ∪ {m} ∪ eventKeys m.1 m.2 (replace_pair_changes m.1 m.2 st.vocab st.idx),
    stats := fun q => if q = m then 0
      else update_pair_statistics_stats m.1 m.2 (replace_pair_changes m.1 m.2 st.vocab st.idx)
        st.stats q,
    idx := update_pair_statistics_indices m.1 m.2 (replace_pair_changes m.1 m.2 st.vocab st.idx)
      st.idx }

/-- Keys of `stats` after the pruning and `stats = copy.deepcopy(big_stats)`
of the rebuild branch. -/
def rebuiltKeys {T : Type} (ltT : Int → T → Bool) (st : LState T) : Finset SPair :=
  pruneBigKeys ltT st.keys st.bigKeys st.stats st.thr

def rebuiltStats {T : Type} (ltT : Int → T → Bool) (st : LState T) : SPair → Int :=
  pruneBig ltT st.keys st.stats st.big st.thr

/-- The full rebuild branch (`learn_bpe.py`, lines 291-297): prune into
`big_stats`, restore `stats` from it, reselect, recompute the threshold
from the reselected pair (`stats[most_frequent] * i/(i+10000.0)`, kept
abstract as `mulFrac`), and prune again. -/
def rebuildSteps {T : Type} (ltT : Int → T → Bool) (mulFrac : Int → Nat → T)
    (i : Nat) (st : LState T) (m : SPair) : LState T :=
  { st with keys := pruneKeys ltT (rebuiltKeys ltT st) (rebuiltStats ltT st)
              (mulFrac (rebuiltStats ltT st m) i),
            stats := rebuiltStats ltT st,
            bigKeys := pruneBigKeys ltT (rebuiltKeys ltT st) (rebuiltKeys ltT st)
              (rebuiltStats ltT st) (mulFrac (rebuiltStats ltT st m) i),
            big := pruneBig ltT (rebuiltKeys ltT st) (rebuiltStats ltT st)
              (rebuiltStats ltT st) (mulFrac (rebuiltStats ltT st m) i),
            thr := mulFrac (rebuiltStats ltT st m) i }

/-- The selection phase of iteration `i` (`learn_bpe.py`, lines 285-297):
either the pruned stats are non-empty and above threshold and the max is
kept, or the statistics are rebuilt from `big_stats` and the max
reselected.  The chosen pair is a relation, not a function: `max` scans
the dict in iteration order. -/
inductive Select {T : Type} (ltT : Int → T → Bool) (mulFrac : Int → Nat → T) (i : Nat) :
    LState T → SPair → LState T → Prop where
  | keep (st : LState T) (m : SPair)
      (hmax : IsPyMax st.keys st.stats m)
      (hcond : i = 0 ∨ ltT (st.stats m) st.thr = false) :
      Select ltT mulFrac i st m st
  | rebuild_empty (st : LState T) (m : SPair) (hkeys : st.keys = ∅)
      (hmax : IsPyMax (rebuiltKeys ltT st) (rebuiltStats ltT st) m) :
      Select ltT mulFrac i st m (rebuildSteps ltT mulFrac i st m)
  | rebuild_thresh (st : LState T) (m₀ m : SPair)
      (hmax₀ : IsPyMax st.keys st.stats m₀) (hi : i ≠ 0)
      (hlt : ltT (st.stats m₀) st.thr = true)
      (hmax : IsPyMax (rebuiltKeys ltT st) (rebuiltStats ltT st) m) :
      Select ltT mulFrac i st m (rebuildSteps ltT mulFrac i st m)

/-- After `do_pair`, iterations with `i % 100 == 0` prune once more. -/
def postStep {T : Type} (ltT : Int → T → Bool) (i : Nat) (m : SPair) (st : LState T) :
    LState T :=
  if i % 100 = 0 then pruneState ltT (doPair m st) else doPair m st

/-- A complete run of the selection loop from iteration `i` with `n`
budgeted iterations left, emitting the merge lines `codes`. -/
inductive Run {T : Type} (ltT : Int → T → Bool) (mulFrac : Int → Nat → T)
    (min_frequency : Int) : Nat → Nat → LState T → List SPair → Prop where
  | done (i : Nat) (st : LState T) : Run ltT mulFrac min_frequency 0 i st []
  | stop (n i : Nat) (st st' : LState T) (m : SPair)
      (hsel : Select ltT mulFrac i st m st')
      (hlow : st'.stats m < min_frequency) :
      Run ltT mulFrac min_frequency (n+1) i st []
  | step (n i : Nat) (st st' : LState T) (m : SPair) (codes : List SPair)
      (hsel : Select ltT mulFrac i st m st')
      (hok : ¬ st'.stats m < min_frequency)
      (hrun : Run ltT mulFrac min_frequency n (i+1) (postStep ltT i m st') codes) :
      Run ltT mulFrac min_frequency (n+1) i st (m :: codes)

theorem Select_unique {T : Type} {ltT : Int → T → Bool} {mulFrac : Int → Nat → T}
    {i : Nat} {st : LState T} {m₁ m₂ : SPair} {st₁ st₂ : LState T}
    (h₁ : Select ltT mulFrac i st m₁ st₁) (h₂ : Select ltT mulFrac i st m₂ st₂) :
    m₁ = m₂ ∧ st₁ = st₂ := by
  cases h₁ with
  | keep =>
    rename_i hmax hcond
    cases h₂ with
    | keep =>
      rename_i hmax' hcond'
      exact ⟨IsPyMax_unique hmax hmax', rfl⟩
    | rebuild_empty =>
      rename_i hkeys hmax'
      rw [hkeys] at hmax
      exact absurd hmax.1 (Finset.not_mem_empty m₁)
    | rebuild_thresh =>
      rename_i m₀ hmax₀ hi hlt hmax'
      obtain rfl : m₁ = m₀ := IsPyMax_unique hmax hmax₀
      rcases hcond with h | h
      · exact absurd h hi
      · rw [h] at hlt
        exact absurd hlt (by simp)
  | rebuild_empty =>
    rename_i hkeys hmax
    cases h₂ with
    | keep =>
      rename_i hmax' hcond'
      rw [hkeys] at hmax'
      exact absurd hmax'.1 (Finset.not_mem_empty m₂)
    | rebuild_empty =>
      rename_i hkeys' hmax'
      obtain rfl : m₁ = m₂ := IsPyMax_unique hmax hmax'
      exact ⟨rfl, rfl⟩
    | rebuild_thresh =>
      rename_i m₀ hmax₀ hi hlt hmax'
      rw [hkeys] at hmax₀
      exact absurd hmax₀.1 (Finset.not_mem_empty m₀)
  | rebuild_thresh =>
    rename_i m₀ hmax₀ hi hlt hmax
    cases h₂ with
    | keep =>
      rename_i hmax' hcond'
      obtain rfl : m₂ = m₀ := IsPyMax_unique hmax' hmax₀
      rcases hcond' with h | h
      · exact absurd h hi
      · rw [h] at hlt
        exact absurd hlt (by simp)
    | rebuild_empty =>
      rename_i hkeys' hmax'
      rw [hkeys'] at hmax₀
      exact absurd hmax₀.1 (Finset.not_mem_empty m₀)
    | rebuild_thresh =>
      rename_i m₀' hmax₀' hi' hlt' hmax'
      obtain rfl : m₁ = m₂ := IsPyMax_unique hmax hmax'
      exact ⟨rfl, rfl⟩

theorem Run_unique {T : Type} (ltT : Int → T → Bool) (mulFrac : Int → Nat → T)
    (min_frequency : Int) :
    ∀ (n i : Nat) (st : LState T) (codes₁ codes₂ : List SPair),
      Run ltT mulFrac min_frequency n i st codes₁ →
      Run ltT mulFrac min_frequency n i st codes₂ → codes₁ = codes₂ := by
  intro n
  induction n with
  | zero =>
    intro i st c₁ c₂ h₁ h₂
    cases h₁
    cases h₂
    rfl
  | succ n ih =>
    intro i st c₁ c₂ h₁ h₂
    cases h₁ with
    | stop =>
      rename_i st₁' m₁ hlow₁ hsel₁
      cases h₂ with
      | stop => rfl
      | step =>
        rename_i st₂' m₂ codes₂' hok₂ hrun₂ hsel₂
        obtain ⟨rfl, rfl⟩ := Select_unique hsel₁ hsel₂
        exact absurd hlow₁ hok₂
    | step =>
      rename_i st₁' m₁ codes₁' hok₁ hrun₁ hsel₁
      cases h₂ with
      | stop =>
        rename_i st₂' m₂ hlow₂ hsel₂
        obtain ⟨rfl, rfl⟩ := Select_unique hsel₁ hsel₂
        exact absurd hlow₂ hok₁
      | step =>
        rename_i st₂' m₂ codes₂' hok₂ hrun₂ hsel₂
        obtain ⟨rfl, rfl⟩ := Select_unique hsel₁ hsel₂
        rw [ih (i+1) _ _ _ hrun₁ hrun₂]

/-- C4: merge learning is deterministic.  Each iteration selects, via
`max(stats, key=lambda x: (stats[x], x))`, a pair maximal in the total
order (frequency, then pair tuple lexicographically); the comparison key
is injective, so the selected pair is unique no matter in which order the
dict is scanned, and two runs of the selection loop from the same state
(the state computed from the vocabulary) with the same symbol budget and
the same minimum frequency emit identical merge tables. -/
theorem merge_learning_deterministic {T : Type} (ltT : Int → T → Bool)
    (mulFrac : Int → Nat → T) (min_frequency : Int) (n i : Nat) (st : LState T)
    (codes₁ codes₂ : List SPair)
    (h₁ : Run ltT mulFrac min_frequency n i st codes₁)
    (h₂ : Run ltT mulFrac min_frequency n i st codes₂) : codes₁ = codes₂ :=
  Run_unique ltT mulFrac min_frequency n i st codes₁ codes₂ h₁ h₂

/-- A one-pair loop state: the pair `('a','b')` with frequency 1. -/
def oneState : LState Int :=
  ⟨{(['a'], ['b'])}, fun _ => 1, {(['a'], ['b'])}, fun _ => 1, 0, [], fun _ _ => 0⟩

theorem merge_learning_deterministic_witness : ([] : List SPair) = [] :=
  merge_learning_deterministic (fun a t => decide (a < t)) (fun a _ => a) 2 1 0 oneState [] []
    (Run.stop 0 0 oneState oneState (['a'], ['b'])
      (Select.keep oneState (['a'], ['b'])
        ⟨Finset.mem_singleton_self _,
         fun q hq => .inr ⟨rfl, .inr (Finset.mem_singleton.mp hq)⟩⟩
        (.inl rfl))
      (by decide))
    (Run.stop 0 0 oneState oneState (['a'], ['b'])
      (Select.keep oneState (['a'], ['b'])
        ⟨Finset.mem_singleton_self _,
         fun q hq => .inr ⟨rfl, .inr (Finset.mem_singleton.mp hq)⟩⟩
        (.inl rfl))
      (by decide))

end SubwordNMT
